import Mathlib

/-
Verification of the GPU-attributes processor
(src/plugins/processors/gpuattributes/processor.go).

The processor walks a metric batch, classifies each GPU-marked metric to a
resource level by name, and filters every data point attribute map against a
static allow-list, additionally re-encoding a JSON "kubernetes" blob attribute
down to an allowed sub-key set.

The Go code relies on the standard library package encoding/json
(json.Unmarshal into map[string]json.RawMessage, json.Marshal of such a map).
That library is embedded below at the level of detail the processor exercises:
a JSON value grammar, a recursive-descent parser with the scanner's whitespace
and literal handling, Go's string escaping (including the default HTML escaping
of the characters lower-than, greater-than and ampersand, and the line and
paragraph separators), surrogate-pair decoding with the replacement character
on lone surrogates, Go's acceptance of a top-level JSON null for a map target
(the map stays nil), last-wins duplicate object keys, and Marshal's sorted key
order for maps.  Raw number tokens are kept verbatim, as json.RawMessage does.
-/

namespace GpuAttributes

/-! ## Go string helpers (strings.Contains, strings.HasPrefix) -/

/-- The needle is an initial segment of the haystack (strings.HasPrefix on
runes; byte-level and rune-level agree for valid UTF-8). -/
def listStarts : List Char → List Char → Bool
  | [], _ => true
  | _ :: _, [] => false
  | a :: as, b :: bs => a == b && listStarts as bs

/-- The needle occurs somewhere in the haystack (strings.Contains). -/
def listHasSub (needle : List Char) : List Char → Bool
  | [] => listStarts needle []
  | c :: cs => listStarts needle (c :: cs) || listHasSub needle cs

def goContains (s sub : String) : Bool := listHasSub sub.data s.data

def goHasPref (s pre : String) : Bool := listStarts pre.data s.data

/-! ## JSON values

The two brace characters are named (not written as literals) throughout. -/

def lbrace : Char := Char.ofNat 123

def rbrace : Char := Char.ofNat 125

/-- A JSON value as encoding/json sees it when decoding into
map[string]json.RawMessage: object member values are raw fragments, so number
tokens are stored verbatim (Marshal re-emits a RawMessage's token unchanged). -/
inductive Json where
  | null
  | bool (b : Bool)
  | num (tok : List Char)
  | str (s : String)
  | arr (elems : List Json)
  | obj (fields : List (String × Json))
deriving Inhabited

/-! ## Character classes and hex digits -/

def isWsChar (c : Char) : Bool := c == ' ' || c == '\t' || c == '\n' || c == '\r'

def isDigitChar (c : Char) : Bool := decide (48 ≤ c.toNat ∧ c.toNat ≤ 57)

/-- Characters that may occur in a JSON number token. -/
def isNumChar (c : Char) : Bool :=
  isDigitChar c || c == '-' || c == '+' || c == '.' || c == 'e' || c == 'E'

def hexVal (c : Char) : Option Nat :=
  if 48 ≤ c.toNat ∧ c.toNat ≤ 57 then some (c.toNat - 48)
  else if 97 ≤ c.toNat ∧ c.toNat ≤ 102 then some (c.toNat - 87)
  else if 65 ≤ c.toNat ∧ c.toNat ≤ 70 then some (c.toNat - 55)
  else none

def hex4 (a b c d : Char) : Option Nat :=
  match hexVal a, hexVal b, hexVal c, hexVal d with
  | some x, some y, some z, some w => some (((x * 16 + y) * 16 + z) * 16 + w)
  | _, _, _, _ => none

/-- Lowercase hex digit, as Go's encoder emits. -/
def hexDig (n : Nat) : Char :=
  if n < 10 then Char.ofNat (48 + n) else Char.ofNat (87 + n)

/-! ## Go's string escaping (encoding/json encoder, escapeHTML on) -/

def uEscape (n : Nat) : List Char :=
  ['\\', 'u', hexDig (n / 4096 % 16), hexDig (n / 256 % 16), hexDig (n / 16 % 16),
    hexDig (n % 16)]

/-- How Go's Marshal writes one character of a string: quote and backslash get
a backslash escape, newline, carriage return and tab their short forms, other
control characters a \u00xx form, the three HTML-sensitive characters and the
line and paragraph separators a \u form as well; everything else verbatim. -/
def escapeChar (c : Char) : List Char :=
  if c = '"' then ['\\', '"']
  else if c = '\\' then ['\\', '\\']
  else if c = '\n' then ['\\', 'n']
  else if c = '\r' then ['\\', 'r']
  else if c = '\t' then ['\\', 't']
  else if c.toNat < 32 ∨ c = '<' ∨ c = '>' ∨ c = '&' ∨ c.toNat = 8232 ∨ c.toNat = 8233 then
    uEscape c.toNat
  else [c]

def escapeList (cs : List Char) : List Char := (cs.map escapeChar).flatten

/-! ## Decoding a string body (after the opening quote) -/

def replacementChar : Char := Char.ofNat 0xFFFD

def combineSurrogates (hi lo : Nat) : Char :=
  Char.ofNat (0x10000 + (hi - 0xD800) * 1024 + (lo - 0xDC00))

def simpleEsc (c : Char) : Option Char :=
  if c = '"' then some '"'
  else if c = '\\' then some '\\'
  else if c = '/' then some '/'
  else if c = 'b' then some (Char.ofNat 8)
  else if c = 'f' then some (Char.ofNat 12)
  else if c = 'n' then some '\n'
  else if c = 'r' then some '\r'
  else if c = 't' then some '\t'
  else none

/-- Decode the characters of a string literal up to its closing quote,
returning the decoded text and the remaining input.  Mirrors Go's unquoting:
unescaped control characters are rejected, \uXXXX escapes are decoded, a high
surrogate combines with an immediately following escaped low surrogate, and a
lone surrogate becomes U+FFFD without consuming what follows it.  The fuel
argument only makes the recursion structural: every recursive call consumes at
least one character, so fuel = length + 1 (what decodeStr supplies) never runs
out. -/
def decodeBody : Nat → List Char → Option (List Char × List Char)
  | 0, _ => none
  | _ + 1, [] => none
  | _ + 1, '"' :: rest => some ([], rest)
  | fuel + 1, '\\' :: 'u' :: a :: b :: c :: d :: rest =>
    match hex4 a b c d with
    | none => none
    | some n =>
      if 0xD800 ≤ n ∧ n ≤ 0xDBFF then
        match rest with
        | '\\' :: 'u' :: a2 :: b2 :: c2 :: d2 :: rest2 =>
          match hex4 a2 b2 c2 d2 with
          | some m =>
            if 0xDC00 ≤ m ∧ m ≤ 0xDFFF then
              (decodeBody fuel rest2).map (fun p => (combineSurrogates n m :: p.1, p.2))
            else
              (decodeBody fuel ('\\' :: 'u' :: a2 :: b2 :: c2 :: d2 :: rest2)).map
                (fun p => (replacementChar :: p.1, p.2))
          | none =>
            (decodeBody fuel ('\\' :: 'u' :: a2 :: b2 :: c2 :: d2 :: rest2)).map
              (fun p => (replacementChar :: p.1, p.2))
        | r => (decodeBody fuel r).map (fun p => (replacementChar :: p.1, p.2))
      else if 0xDC00 ≤ n ∧ n ≤ 0xDFFF then
        (decodeBody fuel rest).map (fun p => (replacementChar :: p.1, p.2))
      else (decodeBody fuel rest).map (fun p => (Char.ofNat n :: p.1, p.2))
  | fuel + 1, '\\' :: e :: rest =>
    match simpleEsc e with
    | some d => (decodeBody fuel rest).map (fun p => (d :: p.1, p.2))
    | none => none
  | fuel + 1, c :: rest =>
    if c.toNat < 32 then none
    else (decodeBody fuel rest).map (fun p => (c :: p.1, p.2))

/-- Decode a string literal body; the fuel never runs out at this bound. -/
def decodeStr (cs : List Char) : Option (List Char × List Char) :=
  decodeBody (cs.length + 1) cs

/-! ## Number tokens -/

/-- Greedily take the characters that can continue a number token. -/
def munchNum : List Char → List Char × List Char
  | [] => ([], [])
  | c :: cs =>
    if isNumChar c then
      let p := munchNum cs
      (c :: p.1, p.2)
    else ([], c :: cs)

def chompDigits : List Char → List Char × List Char
  | [] => ([], [])
  | c :: cs =>
    if isDigitChar c then
      let p := chompDigits cs
      (c :: p.1, p.2)
    else ([], c :: cs)

/-- Drop one leading exponent sign, if present. -/
def stripSign : List Char → List Char
  | [] => []
  | c :: r => if c = '+' ∨ c = '-' then r else c :: r

def expDigits (cs : List Char) : Bool :=
  let p := chompDigits (stripSign cs)
  !p.1.isEmpty && p.2.isEmpty

/-- Validate an optional exponent at the end of a number token. -/
def validExpPart : List Char → Bool
  | [] => true
  | 'e' :: r => expDigits r
  | 'E' :: r => expDigits r
  | _ => false

/-- Validate an optional fraction then an optional exponent, exactly the JSON
number grammar Go's scanner enforces after the integer part. -/
def validFracPart : List Char → Bool
  | '.' :: r =>
    let p := chompDigits r
    !p.1.isEmpty && validExpPart p.2
  | cs => validExpPart cs

/-- Drop one leading minus sign, if present. -/
def stripMinus : List Char → List Char
  | [] => []
  | c :: r => if c = '-' then r else c :: r

/-- The JSON number grammar: optional minus, an integer part with no leading
zero, optional fraction, optional exponent, nothing else. -/
def validNumTok (cs : List Char) : Bool :=
  match stripMinus cs with
  | [] => false
  | '0' :: r => validFracPart r
  | c :: t =>
    isDigitChar c && validFracPart (chompDigits (c :: t)).2

/-- Scan a number token: take the maximal run of number characters, then
validate it against the grammar (Go's scanner rejects the same inputs: any
token it accepts is followed by a non-number character, and any maximal run
that breaks the grammar draws a syntax error). -/
def parseNumTok (cs : List Char) : Option (List Char × List Char) :=
  let p := munchNum cs
  if validNumTok p.1 then some (p.1, p.2) else none

/-- The input cannot extend a number token: empty, or headed by a character
outside the number-character set (every JSON delimiter qualifies). -/
def numStop : List Char → Bool
  | [] => true
  | c :: _ => !isNumChar c

/-! ## Compact encoding (what Marshal produces: no whitespace) -/

mutual

def jsonEncode : Json → List Char
  | .null => "null".data
  | .bool true => "true".data
  | .bool false => "false".data
  | .num tok => tok
  | .str s => '"' :: (escapeList s.data ++ ['"'])
  | .arr es => '[' :: (jsonEncodeElems es ++ [']'])
  | .obj fs => lbrace :: (jsonEncodeFields fs ++ [rbrace])

def jsonEncodeElems : List Json → List Char
  | [] => []
  | e :: es => jsonEncode e ++ jsonEncodeElemsTail es

def jsonEncodeElemsTail : List Json → List Char
  | [] => []
  | e :: es => ',' :: (jsonEncode e ++ jsonEncodeElemsTail es)

def jsonEncodeFields : List (String × Json) → List Char
  | [] => []
  | (k, v) :: fs =>
    '"' :: (escapeList k.data ++ ('"' :: ':' :: (jsonEncode v ++ jsonEncodeFieldsTail fs)))

def jsonEncodeFieldsTail : List (String × Json) → List Char
  | [] => []
  | (k, v) :: fs =>
    ',' :: ('"' :: (escapeList k.data ++ ('"' :: ':' :: (jsonEncode v ++ jsonEncodeFieldsTail fs))))

end

/-! ## Well-formed values: number tokens obey the grammar.  Parser outputs are
well formed, and the encoder is a parser inverse on well-formed values. -/

mutual

def jsonWf : Json → Bool
  | .num tok => validNumTok tok
  | .arr es => jsonWfList es
  | .obj fs => jsonWfFields fs
  | _ => true

def jsonWfList : List Json → Bool
  | [] => true
  | e :: es => jsonWf e && jsonWfList es

def jsonWfFields : List (String × Json) → Bool
  | [] => true
  | (_, v) :: fs => jsonWf v && jsonWfFields fs

end

/-! ## The parser (fuel-indexed recursive descent, Go's scanner grammar) -/

def skipWs : List Char → List Char
  | c :: cs => if isWsChar c then skipWs cs else c :: cs
  | [] => []

mutual

def parseValue : Nat → List Char → Option (Json × List Char)
  | 0, _ => none
  | fuel + 1, cs =>
    match skipWs cs with
    | 'n' :: 'u' :: 'l' :: 'l' :: r => some (.null, r)
    | 't' :: 'r' :: 'u' :: 'e' :: r => some (.bool true, r)
    | 'f' :: 'a' :: 'l' :: 's' :: 'e' :: r => some (.bool false, r)
    | c :: r =>
      if c = '"' then (decodeStr r).map (fun p => (Json.str (String.mk p.1), p.2))
      else if c = lbrace then
        match skipWs r with
        | d :: r2 =>
          if d = rbrace then some (.obj [], r2)
          else (parseMembers fuel (d :: r2)).map (fun p => (Json.obj p.1, p.2))
        | [] => none
      else if c = '[' then
        match skipWs r with
        | d :: r2 =>
          if d = ']' then some (.arr [], r2)
          else (parseElems fuel (d :: r2)).map (fun p => (Json.arr p.1, p.2))
        | [] => none
      else if c = '-' || isDigitChar c then
        (parseNumTok (c :: r)).map (fun p => (Json.num p.1, p.2))
      else none
    | [] => none

def parseElems : Nat → List Char → Option (List Json × List Char)
  | 0, _ => none
  | fuel + 1, cs =>
    match parseValue fuel cs with
    | none => none
    | some (v, r) =>
      match skipWs r with
      | c :: r2 =>
        if c = ',' then (parseElems fuel r2).map (fun p => (v :: p.1, p.2))
        else if c = ']' then some ([v], r2)
        else none
      | [] => none

def parseMembers : Nat → List Char → Option (List (String × Json) × List Char)
  | 0, _ => none
  | fuel + 1, cs =>
    match skipWs cs with
    | '"' :: r =>
      match decodeStr r with
      | none => none
      | some (kcs, r1) =>
        match skipWs r1 with
        | ':' :: r2 =>
          match parseValue fuel r2 with
          | none => none
          | some (v, r3) =>
            match skipWs r3 with
            | c :: r4 =>
              if c = ',' then
                (parseMembers fuel r4).map (fun p => ((String.mk kcs, v) :: p.1, p.2))
              else if c = rbrace then some ([(String.mk kcs, v)], r4)
              else none
            | [] => none
        | _ => none
    | _ => none

end

/-! ## Go map semantics

A Go map[string]json.RawMessage is represented canonically as an association
list strictly sorted by key.  Decoding inserts members left to right with
overwrite, so a duplicate key keeps its last value, exactly as encoding/json
fills a map; Marshal iterates a map's keys in sorted order. -/

/-- Lexicographic order on character lists; on valid UTF-8 this is exactly the
byte order Go's sort.Strings uses for Marshal's map keys. -/
def charsLt : List Char → List Char → Bool
  | [], [] => false
  | [], _ :: _ => true
  | _ :: _, [] => false
  | a :: as, b :: bs => decide (a < b) || (a == b && charsLt as bs)

def strLtB (a b : String) : Bool := charsLt a.data b.data

def insertSorted (k : String) (v : Json) : List (String × Json) → List (String × Json)
  | [] => [(k, v)]
  | (k1, v1) :: t =>
    if k = k1 then (k, v) :: t
    else if strLtB k k1 then (k, v) :: (k1, v1) :: t
    else (k1, v1) :: insertSorted k v t

def canonMap (fs : List (String × Json)) : List (String × Json) :=
  fs.foldl (fun acc kv => insertSorted kv.1 kv.2 acc) []

/-- json.Unmarshal(data, ptr-to-map[string]json.RawMessage): parse the document
(whitespace allowed around it), require a JSON object — except that a JSON
null is accepted and leaves the map nil, hence empty. -/
def goUnmarshalMap (s : String) : Option (List (String × Json)) :=
  let cs := s.data
  match parseValue (2 * cs.length + 2) cs with
  | none => none
  | some (j, rest) =>
    if (skipWs rest).isEmpty then
      match j with
      | .null => some []
      | .obj fields => some (canonMap fields)
      | _ => none
    else none

/-- json.Marshal of a map[string]json.RawMessage: members in sorted key order,
compact, keys and string values escaped as Go's encoder does. -/
def goMarshalMap (fs : List (String × Json)) : String :=
  String.mk (jsonEncode (Json.obj (canonMap fs)))

/-! ## The pdata model (pcommon.Value, pcommon.Map, pmetric)

A pcommon.Map is an ordered collection of unique keys; RemoveIf keeps order,
PutStr updates an existing key in place or appends a new one, Get returns the
value at a key.  The model is an association list in map order; duplicates
never arise from the processor but the operations are defined on any list. -/

/-- The attribute value types the processor can meet.  Value.Str() returns the
string when the value is a string and the empty string otherwise, which is
what av.Str() yields in filterAttributes for a non-string attribute. -/
inductive PValue where
  | str (s : String)
  | int (i : Int)
  | boolVal (b : Bool)
  | empty
deriving DecidableEq

def pvalStr : PValue → String
  | .str s => s
  | _ => ""

abbrev AttrMap := List (String × PValue)

def mapGet (m : AttrMap) (k : String) : Option PValue :=
  List.lookup k m

/-- pcommon.Map.PutStr: overwrite the value at an existing key (keeping its
position), append the pair otherwise. -/
def mapPutStr (m : AttrMap) (k : String) (s : String) : AttrMap :=
  match m with
  | [] => [(k, .str s)]
  | (k1, v1) :: t => if k1 = k then (k1, PValue.str s) :: t else (k1, v1) :: mapPutStr t k s

/-- Diagnostics the processor hands its zap logger. -/
inductive Diag where
  | warnUnmarshal (label : String)
  | warnMarshal (label : String)
  | debugUnknownMetricType (t : String)
deriving DecidableEq

structure DataPoint where
  attributes : AttrMap
deriving DecidableEq

/-- pmetric.Metric data: Gauge and Sum carry the number data points the
processor filters; the remaining metric types fall to the switch's default. -/
inductive MetricData where
  | gauge (dps : List DataPoint)
  | sum (dps : List DataPoint)
  | histogram (dps : List DataPoint)
  | expHistogram (dps : List DataPoint)
  | summary (dps : List DataPoint)
  | emptyData
deriving DecidableEq

/-- pmetric.MetricType.String() for the debug log line. -/
def metricTypeName : MetricData → String
  | .gauge _ => "Gauge"
  | .sum _ => "Sum"
  | .histogram _ => "Histogram"
  | .expHistogram _ => "ExponentialHistogram"
  | .summary _ => "Summary"
  | .emptyData => "Empty"

structure Metric where
  name : String
  data : MetricData
deriving DecidableEq

/-! ## Constants of package containerinsightscommon

Modelled from the spec: the package internal/containerinsightscommon is not in
the excerpted sources, only its constant names appear in processor.go.  The
spec fixes the names that matter (ClusterName, Namespace, PodName,
ContainerName, FullPodName, GpuDevice, NodeName, Service, InstanceId, and the
blob attribute key kubernetes); the remaining values never influence a claim. -/

def ClusterNameKey : String := "ClusterName"

def InstanceIdKey : String := "InstanceId"

def GpuDeviceKey : String := "GpuDevice"

def MetricType : String := "Type"

def NodeNameKey : String := "NodeName"

def VersionKey : String := "Version"

def SourcesKey : String := "Sources"

def Timestamp : String := "Timestamp"

def K8sNamespace : String := "Namespace"

def FullPodNameKey : String := "FullPodName"

def PodNameKey : String := "PodName"

def TypeService : String := "Service"

def GpuUniqueId : String := "UUID"

def ContainerNamekey : String := "ContainerName"

def K8sKey : String := "kubernetes"

def HostKey : String := "host"

/-! ## The processor (processor.go) -/

def gpuMetricIdentifier : String := "_gpu_"

def gpuContainerMetricPref : String := "container_"

def gpuPodMetricPref : String := "pod_"

def gpuNodeMetricPref : String := "node_"

def nodeLabels : List String :=
  [ClusterNameKey, InstanceIdKey, GpuDeviceKey, MetricType, NodeNameKey, VersionKey,
    SourcesKey, Timestamp]

def podLabels : List String :=
  [K8sNamespace, FullPodNameKey, PodNameKey, TypeService, GpuUniqueId] ++ nodeLabels

def containerLabels : List String :=
  [ContainerNamekey] ++ podLabels

def nodeK8sLabels : List String := [HostKey]

def podK8sLabels : List String :=
  ["host", "labels", "pod_id", "pod_name", "pod_owners", "namespace"] ++ nodeK8sLabels

def containerK8sLabels : List String :=
  ["container_name", "containerd"] ++ podK8sLabels

/-- The labelFilter map built in processMetricAttributes: every flat label maps
to nil, and when the blob label set is nonempty the key "kubernetes" maps to
it.  An association list stands for the Go map; no flat label equals K8sKey,
so insertion order cannot matter. -/
def buildLabelFilter (labels k8sBlobLabels : List String) : List (String × List String) :=
  labels.map (fun attr => (attr, []))
    ++ (if k8sBlobLabels.isEmpty then [] else [(K8sKey, k8sBlobLabels)])

/-- One entry of the filterAttributes label loop: entries with no child filter
list are skipped; for an entry with one, the attribute's string value is
decoded as a JSON map, its members filtered to the allowed sub-keys, and the
re-encoded text written back; a decode failure warns and leaves the attribute
untouched.  (json.Marshal of a map of RawMessage fragments produced by
json.Unmarshal cannot fail, so the Go code's marshal-error warning never
fires and the model's marshal is total.) -/
def blobStep (acc : AttrMap × List Diag) (entry : String × List String) :
    AttrMap × List Diag :=
  if entry.2.isEmpty then acc
  else
    match mapGet acc.1 entry.1 with
    | none => acc
    | some av =>
      match goUnmarshalMap (pvalStr av) with
      | none => (acc.1, acc.2 ++ [Diag.warnUnmarshal entry.1])
      | some blob =>
        let newBlob := blob.filter (fun kv => entry.2.contains kv.1)
        (mapPutStr acc.1 entry.1 (goMarshalMap newBlob), acc.2)

/-- The RemoveIf keep-predicate of filterAttributes: the callback returns
false (keep) exactly when the attribute's key is a key of the filter map. -/
def keyKept (labels : List (String × List String)) (kv : String × PValue) : Bool :=
  (List.lookup kv.1 labels).isSome

/-- filterAttributes: an empty filter returns at once; otherwise RemoveIf
drops every attribute whose key is not a filter key, then the label loop
rewrites blob-valued entries. -/
def filterAttributes (attributes : AttrMap) (labels : List (String × List String)) :
    AttrMap × List Diag :=
  if labels.isEmpty then (attributes, [])
  else
    let kept := attributes.filter (keyKept labels)
    labels.foldl blobStep (kept, [])

/-- The label-list pair selected by the metric-name prefix chain. -/
def resolveLists (name : String) : List String × List String :=
  if goHasPref name gpuContainerMetricPref then (containerLabels, containerK8sLabels)
  else if goHasPref name gpuPodMetricPref then (podLabels, podK8sLabels)
  else if goHasPref name gpuNodeMetricPref then (nodeLabels, nodeK8sLabels)
  else ([], [])

def filterDps (lf : List (String × List String)) : List DataPoint → List DataPoint × List Diag
  | [] => ([], [])
  | dp :: dps =>
    let r := filterAttributes dp.attributes lf
    let rest := filterDps lf dps
    (⟨r.1⟩ :: rest.1, r.2 ++ rest.2)

/-- processMetricAttributes: skip non-GPU names, pick the schema by prefix,
and resolve the data points only for Gauge and Sum.  For any other type the
switch's default case logs a debug notice and does not return, so the loop
below the switch calls dps.Len() on the zero value of
pmetric.NumberDataPointSlice, whose nil internal slice pointer makes the call
panic.  Except.error models that panic, carrying the log lines the call wrote
before crashing (the debug line is emitted first). -/
def processMetricAttributes (m : Metric) : Except (List Diag) (Metric × List Diag) :=
  if !goContains m.name gpuMetricIdentifier then .ok (m, [])
  else
    let lists := resolveLists m.name
    let labelFilter := buildLabelFilter lists.1 lists.2
    match m.data with
    | .gauge dps =>
      let r := filterDps labelFilter dps
      .ok ({ m with data := .gauge r.1 }, r.2)
    | .sum dps =>
      let r := filterDps labelFilter dps
      .ok ({ m with data := .sum r.1 }, r.2)
    | d => .error [Diag.debugUnknownMetricType (metricTypeName d)]

/-- A panic in processMetricAttributes unwinds the whole walk (nothing
recovers it); the error value keeps the log lines written before the crash,
and no later metric is visited. -/
def processScope : List Metric → Except (List Diag) (List Metric × List Diag)
  | [] => .ok ([], [])
  | m :: ms =>
    match processMetricAttributes m with
    | .error ds => .error ds
    | .ok r =>
      match processScope ms with
      | .error ds => .error (r.2 ++ ds)
      | .ok rest => .ok (r.1 :: rest.1, r.2 ++ rest.2)

def processResource : List (List Metric) → Except (List Diag) (List (List Metric) × List Diag)
  | [] => .ok ([], [])
  | scope :: scopes =>
    match processScope scope with
    | .error ds => .error ds
    | .ok r =>
      match processResource scopes with
      | .error ds => .error (r.2 ++ ds)
      | .ok rest => .ok (r.1 :: rest.1, r.2 ++ rest.2)

def processBatch : List (List (List Metric)) → Except (List Diag) (List (List (List Metric)) × List Diag)
  | [] => .ok ([], [])
  | rs :: rss =>
    match processResource rs with
    | .error ds => .error ds
    | .ok r =>
      match processBatch rss with
      | .error ds => .error (r.2 ++ ds)
      | .ok rest => .ok (r.1 :: rest.1, r.2 ++ rest.2)

/-- The outcome of one processMetrics call that returns: the batch handed
back, the log lines emitted along the way, and the error result of the Go
function. -/
structure ProcessOutput where
  metrics : List (List (List Metric))
  diags : List Diag
  err : Option String

/-- processMetrics walks resource metrics, scope metrics and metrics, calls
processMetricAttributes on each metric, and returns the batch with a nil
error — when it returns at all: a GPU-marked metric of a type other than
Gauge or Sum panics the walk, and Except.error (with the log lines written
before the crash) models the call never reaching its return statement. -/
def processMetrics (md : List (List (List Metric))) : Except (List Diag) ProcessOutput :=
  match processBatch md with
  | .error ds => .error ds
  | .ok r => .ok { metrics := r.1, diags := r.2, err := none }

/-! ## Resource levels (spec vocabulary for the three static schemas) -/

inductive ResourceLevel where
  | container
  | pod
  | node
deriving DecidableEq

def flatLabels : ResourceLevel → List String
  | .container => containerLabels
  | .pod => podLabels
  | .node => nodeLabels

def blobLabels : ResourceLevel → List String
  | .container => containerK8sLabels
  | .pod => podK8sLabels
  | .node => nodeK8sLabels

def schemaFilter (L : ResourceLevel) : List (String × List String) :=
  buildLabelFilter (flatLabels L) (blobLabels L)

/-- The key set of the labelFilter map at a level: the flat allow-list. -/
def filterKeys (L : ResourceLevel) : List String :=
  (schemaFilter L).map Prod.fst

/-! ## Statement vocabulary -/

/-- The keys of an attribute map, in order. -/
def listKeys (m : AttrMap) : List String := m.map Prod.fst

/-- The metric types whose data points the processor resolves. -/
def isGaugeOrSum : MetricData → Bool
  | .gauge _ => true
  | .sum _ => true
  | _ => false

/-- The text is a JSON document whose value is an object (the spec's "valid
JSON-object text"). -/
def isJsonObjText (s : String) : Bool :=
  match parseValue (2 * s.data.length + 2) s.data with
  | some (.obj _, rest) => (skipWs rest).isEmpty
  | _ => false

/-! ## Basic lemmas about the walker -/

theorem filterAttributes_nilFilter (a : AttrMap) : filterAttributes a [] = (a, []) := rfl

theorem filterDps_nilFilter (dps : List DataPoint) : filterDps [] dps = (dps, []) := by
  induction dps with
  | nil => rfl
  | cons dp dps ih => simp [filterDps, filterAttributes_nilFilter, ih]

/-! ## Claim theorems: the walker -/

/-- C1.  The spec's end-to-end scenario: a Gauge metric named
container_gpu_utilization keeps ClusterName and PodName, loses UnknownKey, and
its kubernetes blob is re-encoded with the sub-key other removed, giving
exactly the attributes ClusterName=c1, PodName=p1,
kubernetes=(labels:empty-object, namespace:"ns1"). -/
theorem claim1_container_scenario :
    processMetricAttributes
      (Metric.mk "container_gpu_utilization"
        (MetricData.gauge [DataPoint.mk
          [("ClusterName", .str "c1"), ("PodName", .str "p1"), ("UnknownKey", .str "x"),
            ("kubernetes",
              .str "\x7b\"labels\":\x7b\x7d,\"other\":1,\"namespace\":\"ns1\"\x7d")]]))
      = .ok (Metric.mk "container_gpu_utilization"
          (MetricData.gauge [DataPoint.mk
            [("ClusterName", .str "c1"), ("PodName", .str "p1"),
              ("kubernetes", .str "\x7b\"labels\":\x7b\x7d,\"namespace\":\"ns1\"\x7d")]]),
          []) := rfl

/-- C8.  A metric whose name does not contain the GPU marker is handed back
unchanged, with no diagnostics: processing leaves its attribute sets
identical to before. -/
theorem claim8_non_gpu_passthrough (m : Metric)
    (h : goContains m.name gpuMetricIdentifier = false) :
    processMetricAttributes m = .ok (m, []) := by
  simp [processMetricAttributes, h]

theorem claim8_witness :
    goContains "cpu_usage_total" gpuMetricIdentifier = false ∧
      processMetricAttributes
          (Metric.mk "cpu_usage_total" (MetricData.gauge [DataPoint.mk [("A", .str "b")]]))
        = .ok (Metric.mk "cpu_usage_total" (MetricData.gauge [DataPoint.mk [("A", .str "b")]]),
            []) :=
  ⟨rfl, claim8_non_gpu_passthrough _ rfl⟩

/-- C9 (code bug).  The claim's permissive fallback holds only for Gauge and
Sum: a Gauge metric whose name holds the GPU marker but starts with no known
prefix gets the empty filter map and its attributes pass through fully
intact; the same metric as a Histogram instead panics at dps.Len() on the
zero-value point slice (after only the debug log line), so the code crashes
where the claim promises "not an error". -/
theorem claim9_divergence :
    processMetricAttributes
        (Metric.mk "fancy_gpu_rate"
          (MetricData.gauge [DataPoint.mk [("UnknownKey", PValue.str "x")]]))
      = .ok (Metric.mk "fancy_gpu_rate"
          (MetricData.gauge [DataPoint.mk [("UnknownKey", PValue.str "x")]]), [])
      ∧ processMetricAttributes
          (Metric.mk "fancy_gpu_rate"
            (MetricData.histogram [DataPoint.mk [("UnknownKey", PValue.str "x")]]))
        = .error [Diag.debugUnknownMetricType "Histogram"] :=
  ⟨rfl, rfl⟩

/-- C4 (code bug).  A GPU-marked metric of a type other than Gauge or Sum
does not leave its attributes unmodified and continue: the switch's default
case only logs, dps keeps the zero value of pmetric.NumberDataPointSlice,
and the loop's dps.Len() dereferences its nil internal pointer — the call
panics right after the debug line, and a metric standing later in the same
scope is never visited. -/
theorem claim4_crash :
    processMetricAttributes
        (Metric.mk "node_gpu_temperature"
          (MetricData.histogram [DataPoint.mk [("A", PValue.str "b")]]))
      = .error [Diag.debugUnknownMetricType "Histogram"]
      ∧ processScope
          [Metric.mk "node_gpu_temperature"
            (MetricData.histogram [DataPoint.mk [("A", PValue.str "b")]]),
            Metric.mk "node_gpu_memory" (MetricData.gauge [DataPoint.mk [("A", PValue.str "b")]])]
        = .error [Diag.debugUnknownMetricType "Histogram"] :=
  ⟨rfl, rfl⟩

/-- C5 (code bug).  The top-level call does not terminate normally on every
batch: one GPU-marked Summary metric is enough to panic the whole
processMetrics walk (Except.error, the batch never handed back), refuting
"no panic, no fatal error path" — the nil-error return is real but only on
the batches that survive to reach it. -/
theorem claim5_crash :
    processMetrics
        [[[Metric.mk "pod_gpu_mem_used" (MetricData.summary [DataPoint.mk []])]]]
      = .error [Diag.debugUnknownMetricType "Summary"] := rfl

/-! ## Lemmas about the attribute map operations -/

theorem lookup_isSome_iff {β : Type} (k : String) (l : List (String × β)) :
    (List.lookup k l).isSome = true ↔ k ∈ l.map Prod.fst := by
  induction l with
  | nil => simp
  | cons e t ih =>
    obtain ⟨k1, v1⟩ := e
    by_cases h : k = k1
    · subst h
      simp [List.lookup]
    · simp [List.lookup, beq_false_of_ne h, h, ih]

theorem listKeys_filter (attrs : AttrMap) (F : List (String × List String)) :
    listKeys (attrs.filter (keyKept F))
      = (listKeys attrs).filter (fun k => (List.lookup k F).isSome) := by
  induction attrs with
  | nil => rfl
  | cons kv t ih =>
    obtain ⟨k, v⟩ := kv
    simp only [listKeys] at ih ⊢
    cases h : (List.lookup k F).isSome <;>
      simp [List.filter_cons, keyKept, h, ih]

theorem lookup_filter_keyKept (l : AttrMap) (F : List (String × List String)) (k : String) :
    List.lookup k (l.filter (keyKept F))
      = if (List.lookup k F).isSome = true then List.lookup k l else none := by
  induction l with
  | nil => simp
  | cons kv t ih =>
    obtain ⟨k1, v1⟩ := kv
    by_cases he : k = k1
    · subst he
      cases h : (List.lookup k F).isSome <;>
        simp [List.filter_cons, keyKept, h, List.lookup, ih]
    · cases h1 : keyKept F (k1, v1) <;>
        simp [List.filter_cons, h1, List.lookup, beq_false_of_ne he, ih]

theorem mapGet_some_mem (m : AttrMap) (k : String) (v : PValue)
    (h : mapGet m k = some v) : k ∈ listKeys m := by
  have : (List.lookup k m).isSome = true := by rw [show List.lookup k m = some v from h]; rfl
  exact (lookup_isSome_iff k m).mp this

theorem listKeys_mapPutStr (m : AttrMap) (k : String) (s : String)
    (h : k ∈ listKeys m) : listKeys (mapPutStr m k s) = listKeys m := by
  induction m with
  | nil => cases h
  | cons kv t ih =>
    obtain ⟨k1, v1⟩ := kv
    by_cases he : k1 = k
    · simp [mapPutStr, he, listKeys]
    · have hk : k ∈ listKeys t := by
        rcases List.mem_cons.mp h with h' | h'
        · exact absurd h'.symm he
        · exact h'
      have ih' := ih hk
      simp only [listKeys] at ih'
      simp [mapPutStr, he, listKeys, ih']

theorem mapGet_mapPutStr_self (m : AttrMap) (k : String) (s : String) :
    mapGet (mapPutStr m k s) k = some (.str s) := by
  induction m with
  | nil => simp [mapPutStr, mapGet, List.lookup]
  | cons kv t ih =>
    obtain ⟨k1, v1⟩ := kv
    by_cases he : k1 = k
    · subst he
      simp [mapPutStr, mapGet, List.lookup]
    · simp only [mapPutStr, if_neg he]
      simpa [mapGet, List.lookup, beq_false_of_ne (Ne.symm he)] using ih

theorem mapPutStr_id (m : AttrMap) (k : String) (s : String)
    (h : mapGet m k = some (.str s)) : mapPutStr m k s = m := by
  induction m with
  | nil => simp [mapGet, List.lookup] at h
  | cons kv t ih =>
    obtain ⟨k1, v1⟩ := kv
    by_cases he : k1 = k
    · subst he
      have : v1 = PValue.str s := by
        simpa [mapGet, List.lookup] using h
      simp [mapPutStr, this]
    · have ht : mapGet t k = some (.str s) := by
        simpa [mapGet, List.lookup, beq_false_of_ne (Ne.symm he)] using h
      simp [mapPutStr, he, ih ht]

theorem mem_mapPutStr (m : AttrMap) (k : String) (s : String) (e : String × PValue)
    (h : e ∈ mapPutStr m k s) : e ∈ m ∨ e.1 = k := by
  induction m with
  | nil =>
    simp [mapPutStr] at h
    subst h
    exact Or.inr rfl
  | cons kv t ih =>
    obtain ⟨k1, v1⟩ := kv
    by_cases he : k1 = k
    · simp only [mapPutStr, if_pos he] at h
      rcases List.mem_cons.mp h with h' | h'
      · subst h'
        exact Or.inr he
      · exact Or.inl (List.mem_cons_of_mem _ h')
    · simp only [mapPutStr, if_neg he] at h
      rcases List.mem_cons.mp h with h' | h'
      · exact Or.inl (h' ▸ List.mem_cons_self _ _)
      · rcases ih h' with h'' | h''
        · exact Or.inl (List.mem_cons_of_mem _ h'')
        · exact Or.inr h''

/-! ## Lemmas about the blob loop -/

theorem blobStep_keys (acc : AttrMap × List Diag) (e : String × List String) :
    listKeys (blobStep acc e).1 = listKeys acc.1 := by
  obtain ⟨lk, ls⟩ := e
  by_cases h1 : ls.isEmpty
  · simp [blobStep, h1]
  · cases h2 : mapGet acc.1 lk with
    | none => simp [blobStep, h1, h2]
    | some av =>
      cases h3 : goUnmarshalMap (pvalStr av) with
      | none => simp [blobStep, h1, h2, h3]
      | some blob =>
        simp [blobStep, h1, h2, h3,
          listKeys_mapPutStr _ _ _ (mapGet_some_mem _ _ _ h2)]

theorem foldl_blobStep_skip (F : List (String × List String)) (acc : AttrMap × List Diag)
    (h : ∀ e ∈ F, e.2 = ([] : List String)) : F.foldl blobStep acc = acc := by
  induction F generalizing acc with
  | nil => rfl
  | cons e t ih =>
    have he : e.2 = ([] : List String) := h e (List.mem_cons_self _ _)
    have hstep : blobStep acc e = acc := by
      simp [blobStep, he]
    rw [List.foldl_cons, hstep]
    exact ih acc (fun x hx => h x (List.mem_cons_of_mem _ hx))

theorem schemaFilter_isEmpty (L : ResourceLevel) : (schemaFilter L).isEmpty = false := by
  cases L <;> rfl

theorem blobLabels_isEmpty (L : ResourceLevel) : (blobLabels L).isEmpty = false := by
  cases L <;> rfl

theorem schemaFilter_split (L : ResourceLevel) :
    schemaFilter L
      = (flatLabels L).map (fun a => (a, ([] : List String))) ++ [(K8sKey, blobLabels L)] := by
  cases L <;> rfl

theorem filterKeys_eq (L : ResourceLevel) : filterKeys L = flatLabels L ++ [K8sKey] := by
  cases L <;> rfl

/-- filterAttributes under one of the three static schemas reduces to the flat
RemoveIf pass followed by the single blob rewrite of the kubernetes entry (the
only filter entry with a child list). -/
theorem filterAttributes_schema (L : ResourceLevel) (attrs : AttrMap) :
    filterAttributes attrs (schemaFilter L)
      = blobStep (attrs.filter (keyKept (schemaFilter L)), []) (K8sKey, blobLabels L) := by
  have hne := schemaFilter_isEmpty L
  have hgen : ∀ acc : AttrMap × List Diag,
      (schemaFilter L).foldl blobStep acc = blobStep acc (K8sKey, blobLabels L) := by
    intro acc
    rw [schemaFilter_split L, List.foldl_append,
      foldl_blobStep_skip _ acc (by
        intro e he
        rcases List.mem_map.mp he with ⟨a, _, rfl⟩
        rfl)]
    rfl
  simp only [filterAttributes, hne, Bool.false_eq_true, if_false]
  exact hgen _

/-- The keys surviving filterAttributes are exactly the original keys that are
keys of the filter map, in order: the blob loop rewrites values only. -/
theorem keys_filterAttributes (L : ResourceLevel) (attrs : AttrMap) :
    listKeys (filterAttributes attrs (schemaFilter L)).1
      = (listKeys attrs).filter (fun k => (List.lookup k (schemaFilter L)).isSome) := by
  rw [filterAttributes_schema, blobStep_keys]
  exact listKeys_filter attrs (schemaFilter L)

/-! ## Claim theorems: allow-list closure and schema nesting -/

/-- C2.  Allow-list closure at every level: after filtering under level L,
every surviving key is a key of L's flat allow-list (the labelFilter key set),
and every allow-listed key present before is still present after — the blob
step rewrites the blob value but never removes a key. -/
theorem claim2_allowlist_closure (L : ResourceLevel) (attrs : AttrMap) (k : String) :
    (k ∈ listKeys (filterAttributes attrs (schemaFilter L)).1 → k ∈ filterKeys L)
      ∧ (k ∈ filterKeys L → k ∈ listKeys attrs →
          k ∈ listKeys (filterAttributes attrs (schemaFilter L)).1) := by
  rw [keys_filterAttributes]
  constructor
  · intro h
    have := (List.mem_filter.mp h).2
    exact (lookup_isSome_iff k (schemaFilter L)).mp (by simpa using this)
  · intro hk hin
    refine List.mem_filter.mpr ⟨hin, ?_⟩
    simpa using (lookup_isSome_iff k (schemaFilter L)).mpr hk

theorem claim2_witness :
    ("ClusterName" ∈ filterKeys .container
        ∧ "ClusterName" ∈ listKeys [("ClusterName", PValue.str "c1"), ("Junk", PValue.str "j")])
      ∧ "ClusterName" ∈ listKeys
          (filterAttributes [("ClusterName", PValue.str "c1"), ("Junk", PValue.str "j")]
            (schemaFilter .container)).1 :=
  ⟨⟨by decide, by decide⟩,
    (claim2_allowlist_closure .container
      [("ClusterName", PValue.str "c1"), ("Junk", PValue.str "j")] "ClusterName").2
      (by decide) (by decide)⟩

/-- C7.  The schemas nest: the container flat allow-list contains the pod
one, which contains the node one, likewise for the blob sub-key lists; and
consequently, on any attribute set, the key set surviving the node schema is
contained in the pod schema's survivors, which is contained in the container
schema's survivors. -/
theorem claim7_schema_nesting :
    (∀ x ∈ nodeLabels, x ∈ podLabels) ∧ (∀ x ∈ podLabels, x ∈ containerLabels)
      ∧ (∀ x ∈ nodeK8sLabels, x ∈ podK8sLabels)
      ∧ (∀ x ∈ podK8sLabels, x ∈ containerK8sLabels)
      ∧ ∀ (attrs : AttrMap) (k : String),
          (k ∈ listKeys (filterAttributes attrs (schemaFilter .node)).1 →
            k ∈ listKeys (filterAttributes attrs (schemaFilter .pod)).1)
          ∧ (k ∈ listKeys (filterAttributes attrs (schemaFilter .pod)).1 →
            k ∈ listKeys (filterAttributes attrs (schemaFilter .container)).1) := by
  refine ⟨by decide, by decide, by decide, by decide, fun attrs k => ?_⟩
  have step : ∀ A B : ResourceLevel, (∀ x ∈ filterKeys A, x ∈ filterKeys B) →
      k ∈ listKeys (filterAttributes attrs (schemaFilter A)).1 →
      k ∈ listKeys (filterAttributes attrs (schemaFilter B)).1 := by
    intro A B hsub h
    exact (claim2_allowlist_closure B attrs k).2
      (hsub k ((claim2_allowlist_closure A attrs k).1 h))
      ((List.mem_filter.mp ((keys_filterAttributes A attrs) ▸ h)).1)
  exact ⟨step .node .pod (by decide), step .pod .container (by decide)⟩

theorem claim7_witness :
    "NodeName" ∈ listKeys
        (filterAttributes [("NodeName", PValue.str "n1")] (schemaFilter .node)).1 ∧
      "NodeName" ∈ listKeys
        (filterAttributes [("NodeName", PValue.str "n1")] (schemaFilter .pod)).1 :=
  ⟨by decide,
    (claim7_schema_nesting.2.2.2.2 [("NodeName", PValue.str "n1")] "NodeName").1 (by decide)⟩

/-! ## Claim theorems: the blob failure modes -/

theorem lookup_K8sKey_isSome (L : ResourceLevel) :
    (List.lookup K8sKey (schemaFilter L)).isSome = true := by
  cases L <;> rfl

theorem mapGet_kept (L : ResourceLevel) (attrs : AttrMap) (v : PValue)
    (hv : mapGet attrs K8sKey = some v) :
    mapGet (attrs.filter (keyKept (schemaFilter L))) K8sKey = some v := by
  show List.lookup _ _ = _
  rw [lookup_filter_keyKept, if_pos (lookup_K8sKey_isSome L)]
  exact hv

/-- C3, counterexample.  The string "null" is not valid JSON-object text, yet
filtering a node-level attribute set holding it as the kubernetes blob does
not leave the value unchanged and emits no diagnostic: the value becomes the
empty object text (json.Unmarshal accepts a JSON null for a map and leaves
the map empty). -/
theorem claim3_counterexample :
    isJsonObjText "null" = false
      ∧ (filterAttributes [(K8sKey, PValue.str "null")] (schemaFilter .node)).1
          = [(K8sKey, PValue.str "\x7b\x7d")]
      ∧ (filterAttributes [(K8sKey, PValue.str "null")] (schemaFilter .node)).2 = [] :=
  ⟨rfl, rfl, rfl⟩

/-- C3, amended.  When the blob attribute's value fails json.Unmarshal into a
map — it is neither a JSON object nor a JSON null — filtering leaves that
value exactly unchanged, emits exactly one warning naming the kubernetes key,
and the sibling flat attributes are still filtered normally (the result is
precisely the RemoveIf pass). -/
theorem claim3_amended_fail_open (L : ResourceLevel) (attrs : AttrMap) (v : PValue)
    (hv : mapGet attrs K8sKey = some v)
    (hu : goUnmarshalMap (pvalStr v) = none) :
    filterAttributes attrs (schemaFilter L)
        = (attrs.filter (keyKept (schemaFilter L)), [Diag.warnUnmarshal K8sKey])
      ∧ mapGet (filterAttributes attrs (schemaFilter L)).1 K8sKey = some v := by
  have hkept := mapGet_kept L attrs v hv
  have hmain : filterAttributes attrs (schemaFilter L)
      = (attrs.filter (keyKept (schemaFilter L)), [Diag.warnUnmarshal K8sKey]) := by
    rw [filterAttributes_schema]
    simp [blobStep, blobLabels_isEmpty, hkept, hu]
  exact ⟨hmain, by rw [hmain]; exact hkept⟩

theorem claim3_witness :
    mapGet [("ClusterName", PValue.str "c1"), ("Junk", PValue.str "j"),
        (K8sKey, PValue.str "not-json")] K8sKey = some (PValue.str "not-json")
      ∧ goUnmarshalMap (pvalStr (PValue.str "not-json")) = none
      ∧ (filterAttributes [("ClusterName", PValue.str "c1"), ("Junk", PValue.str "j"),
            (K8sKey, PValue.str "not-json")] (schemaFilter .node)
          = ([("ClusterName", PValue.str "c1"), (K8sKey, PValue.str "not-json")],
              [Diag.warnUnmarshal K8sKey])) :=
  ⟨rfl, rfl, by
    have h := (claim3_amended_fail_open .node
      [("ClusterName", PValue.str "c1"), ("Junk", PValue.str "j"),
        (K8sKey, PValue.str "not-json")] (PValue.str "not-json") rfl rfl).1
    rw [h]
    rfl⟩

/-- C10.  json.Unmarshal of the text "null" into a map succeeds with an empty
map; consequently a blob attribute holding "null" (or any successfully
decoded blob none of whose sub-keys is allowed) is overwritten with the
two-character empty-object text, and no diagnostic is emitted. -/
theorem claim10_null_blob :
    goUnmarshalMap "null" = some []
      ∧ ∀ (L : ResourceLevel) (attrs : AttrMap) (v : PValue) (fs : List (String × Json)),
          mapGet attrs K8sKey = some v →
          goUnmarshalMap (pvalStr v) = some fs →
          fs.filter (fun kv => (blobLabels L).contains kv.1) = [] →
          (filterAttributes attrs (schemaFilter L)).1
              = mapPutStr (attrs.filter (keyKept (schemaFilter L))) K8sKey "\x7b\x7d"
            ∧ (filterAttributes attrs (schemaFilter L)).2 = []
            ∧ mapGet (filterAttributes attrs (schemaFilter L)).1 K8sKey
                = some (PValue.str "\x7b\x7d") := by
  refine ⟨rfl, fun L attrs v fs hv hu hf => ?_⟩
  have hkept := mapGet_kept L attrs v hv
  have hmain : filterAttributes attrs (schemaFilter L)
      = (mapPutStr (attrs.filter (keyKept (schemaFilter L))) K8sKey "\x7b\x7d", []) := by
    rw [filterAttributes_schema]
    simp only [blobStep, blobLabels_isEmpty, Bool.false_eq_true, if_false, hkept, hu, hf]
    rfl
  refine ⟨by rw [hmain], by rw [hmain], ?_⟩
  rw [hmain]
  exact mapGet_mapPutStr_self _ _ _

theorem claim10_witness :
    mapGet [(K8sKey, PValue.str "null")] K8sKey = some (PValue.str "null")
      ∧ goUnmarshalMap (pvalStr (PValue.str "null")) = some []
      ∧ mapGet (filterAttributes [(K8sKey, PValue.str "null")] (schemaFilter .pod)).1 K8sKey
          = some (PValue.str "\x7b\x7d") :=
  ⟨rfl, rfl,
    (claim10_null_blob.2 .pod [(K8sKey, PValue.str "null")] (PValue.str "null") []
      rfl rfl rfl).2.2⟩

/-! ## The string codec inverse: decoding undoes Go's escaping -/

theorem hexVal_hexDig (n : Nat) (h : n < 16) : hexVal (hexDig n) = some n := by
  interval_cases n <;> rfl

theorem hex4_hexDig (a b c d : Nat) (ha : a < 16) (hb : b < 16) (hc : c < 16) (hd : d < 16) :
    hex4 (hexDig a) (hexDig b) (hexDig c) (hexDig d) = some (((a * 16 + b) * 16 + c) * 16 + d) := by
  simp [hex4, hexVal_hexDig, ha, hb, hc, hd]

theorem decodeBody_uEscape (fuel : Nat) (n : Nat) (hn : n < 0xD800) (rest : List Char) :
    decodeBody (fuel + 1) (uEscape n ++ rest)
      = (decodeBody fuel rest).map (fun p => (Char.ofNat n :: p.1, p.2)) := by
  have harith : ((n / 4096 % 16 * 16 + n / 256 % 16) * 16 + n / 16 % 16) * 16 + n % 16 = n := by
    omega
  have h16 : ∀ k : Nat, k % 16 < 16 := fun k => Nat.mod_lt _ (by omega)
  have hno1 : ¬(55296 ≤ n ∧ n ≤ 56319) := by omega
  have hno2 : ¬(56320 ≤ n ∧ n ≤ 57343) := by omega
  simp only [uEscape, List.cons_append]
  rw [decodeBody]
  rw [hex4_hexDig _ _ _ _ (h16 _) (h16 _) (h16 _) (h16 _)]
  simp [harith, hno1, hno2]

theorem decodeBody_escapeChar (fuel : Nat) (c : Char) (rest : List Char) :
    decodeBody (fuel + 1) (escapeChar c ++ rest)
      = (decodeBody fuel rest).map (fun p => (c :: p.1, p.2)) := by
  by_cases h1 : c = '"'
  · subst h1
    simp [escapeChar, decodeBody, simpleEsc]
  by_cases h2 : c = '\\'
  · subst h2
    simp [escapeChar, decodeBody, simpleEsc]
  by_cases h3 : c = '\n'
  · subst h3
    simp [escapeChar, decodeBody, simpleEsc]
  by_cases h4 : c = '\r'
  · subst h4
    simp [escapeChar, decodeBody, simpleEsc]
  by_cases h5 : c = '\t'
  · subst h5
    simp [escapeChar, decodeBody, simpleEsc]
  by_cases h6 : c.toNat < 32 ∨ c = '<' ∨ c = '>' ∨ c = '&' ∨ c.toNat = 8232 ∨ c.toNat = 8233
  · have hesc : escapeChar c = uEscape c.toNat := by
      simp [escapeChar, h1, h2, h3, h4, h5, h6]
    have hlt : c.toNat < 0xD800 := by
      rcases h6 with h | h | h | h | h | h
      · omega
      · subst h; decide
      · subst h; decide
      · subst h; decide
      · omega
      · omega
    rw [hesc, decodeBody_uEscape fuel c.toNat hlt, Char.ofNat_toNat]
  · have hesc : escapeChar c = [c] := by
      simp [escapeChar, h1, h2, h3, h4, h5, h6]
    have hlt : ¬c.toNat < 32 := by
      intro hx
      exact h6 (Or.inl hx)
    rw [hesc, List.cons_append, List.nil_append, decodeBody.eq_def]
    simp [h1, h2, hlt]

theorem escapeList_cons (c : Char) (cs : List Char) :
    escapeList (c :: cs) = escapeChar c ++ escapeList cs := by
  simp [escapeList]

theorem decodeBody_escapeList (cs : List Char) (rest : List Char) : ∀ fuel : Nat,
    decodeBody (cs.length + fuel + 1) (escapeList cs ++ '"' :: rest) = some (cs, rest) := by
  induction cs with
  | nil =>
    intro fuel
    simp [escapeList, decodeBody]
  | cons c t ih =>
    intro fuel
    rw [escapeList_cons, List.append_assoc]
    have hlen : (c :: t).length + fuel + 1 = (t.length + fuel + 1) + 1 := by
      simp only [List.length_cons]
      omega
    rw [hlen, decodeBody_escapeChar, ih fuel]
    rfl

theorem escapeChar_length_pos (c : Char) : 1 ≤ (escapeChar c).length := by
  unfold escapeChar
  split
  · simp
  split
  · simp
  split
  · simp
  split
  · simp
  split
  · simp
  split
  · simp [uEscape]
  · simp

theorem escapeList_length_ge (cs : List Char) : cs.length ≤ (escapeList cs).length := by
  induction cs with
  | nil => simp [escapeList]
  | cons c t ih =>
    rw [escapeList_cons, List.length_append, List.length_cons]
    have := escapeChar_length_pos c
    omega

theorem decodeStr_escapeList (cs : List Char) (rest : List Char) :
    decodeStr (escapeList cs ++ '"' :: rest) = some (cs, rest) := by
  have hge : cs.length ≤ (escapeList cs ++ '"' :: rest).length := by
    rw [List.length_append]
    have := escapeList_length_ge cs
    omega
  have h := decodeBody_escapeList cs rest ((escapeList cs ++ '"' :: rest).length - cs.length)
  rw [show cs.length + ((escapeList cs ++ '"' :: rest).length - cs.length) + 1
      = (escapeList cs ++ '"' :: rest).length + 1 by omega] at h
  exact h

/-! ## Number token lemmas -/

theorem digit_isNum {c : Char} (h : isDigitChar c = true) : isNumChar c = true := by
  simp [isNumChar, h]

theorem chompDigits_eq (cs : List Char) :
    cs = (chompDigits cs).1 ++ (chompDigits cs).2
      ∧ (chompDigits cs).1.all isDigitChar = true := by
  induction cs with
  | nil => simp [chompDigits]
  | cons c t ih =>
    by_cases h : isDigitChar c
    · simpa [chompDigits, h] using ih
    · simp [chompDigits, h]

theorem all_isNum_of_digits {l : List Char} (h : l.all isDigitChar = true) :
    l.all isNumChar = true := by
  rw [List.all_eq_true] at h ⊢
  exact fun c hc => digit_isNum (h c hc)

theorem expDigits_all {cs : List Char} (h : expDigits cs = true) :
    cs.all isNumChar = true := by
  unfold expDigits at h
  rw [Bool.and_eq_true] at h
  obtain ⟨hne, hemp⟩ := h
  have hspec := chompDigits_eq (stripSign cs)
  have hstrip : stripSign cs = (chompDigits (stripSign cs)).1 := by
    rw [List.isEmpty_iff] at hemp
    conv_lhs => rw [hspec.1]
    rw [hemp, List.append_nil]
  have hall : (stripSign cs).all isNumChar = true := by
    rw [hstrip]
    exact all_isNum_of_digits hspec.2
  cases cs with
  | nil => rfl
  | cons c r =>
    by_cases hs : c = '+' ∨ c = '-'
    · have : stripSign (c :: r) = r := by simp [stripSign, hs]
      rw [this] at hall
      have hc : isNumChar c = true := by
        rcases hs with rfl | rfl <;> rfl
      simp [List.all_cons, hc, hall]
    · have : stripSign (c :: r) = c :: r := by simp [stripSign, hs]
      rw [this] at hall
      exact hall

theorem all_num_cons {c : Char} {l : List Char} (hc : isNumChar c = true)
    (hl : l.all isNumChar = true) : (c :: l).all isNumChar = true := by
  simp [List.all_cons, hc, hl]

theorem validExpPart_all {cs : List Char} (h : validExpPart cs = true) :
    cs.all isNumChar = true := by
  rw [validExpPart.eq_def] at h
  split at h
  · rfl
  · exact all_num_cons rfl (expDigits_all h)
  · exact all_num_cons rfl (expDigits_all h)
  · exact absurd h (by simp)

theorem validFracPart_all {cs : List Char} (h : validFracPart cs = true) :
    cs.all isNumChar = true := by
  rw [validFracPart.eq_def] at h
  split at h
  · rename_i r
    rw [Bool.and_eq_true] at h
    have hspec := chompDigits_eq r
    refine all_num_cons rfl ?_
    conv_lhs => rw [hspec.1]
    rw [List.all_append, all_isNum_of_digits hspec.2, validExpPart_all h.2]
    rfl
  · exact validExpPart_all h

theorem validNumTok_all {cs : List Char} (h : validNumTok cs = true) :
    cs.all isNumChar = true := by
  have main : ∀ ds : List Char, validNumTok ds = true → stripMinus ds = ds →
      ds.all isNumChar = true := by
    intro ds hd hs
    rw [validNumTok.eq_def, hs] at hd
    split at hd
    · exact rfl
    · exact all_num_cons rfl (validFracPart_all hd)
    · rename_i c t _
      rw [Bool.and_eq_true] at hd
      have hspec := chompDigits_eq (c :: t)
      conv_lhs => rw [hspec.1]
      rw [List.all_append, all_isNum_of_digits hspec.2, validFracPart_all hd.2]
      rfl
  cases cs with
  | nil => rfl
  | cons c r =>
    by_cases hm : c = '-'
    · subst hm
      have hstrip : stripMinus ('-' :: r) = r := by simp [stripMinus]
      rw [validNumTok.eq_def, hstrip] at h
      split at h
      · exact absurd h (by simp)
      · exact all_num_cons rfl (all_num_cons rfl (validFracPart_all h))
      · rename_i c' t _
        rw [Bool.and_eq_true] at h
        have hspec := chompDigits_eq (c' :: t)
        refine all_num_cons rfl ?_
        conv_lhs => rw [hspec.1]
        rw [List.all_append, all_isNum_of_digits hspec.2, validFracPart_all h.2]
        rfl
    · have hstrip : stripMinus (c :: r) = c :: r := by simp [stripMinus, hm]
      exact main (c :: r) h hstrip

theorem munchNum_append {tok rest : List Char} (h1 : tok.all isNumChar = true)
    (h2 : numStop rest = true) : munchNum (tok ++ rest) = (tok, rest) := by
  induction tok with
  | nil =>
    cases rest with
    | nil => rfl
    | cons c t =>
      have hc : isNumChar c = false := by
        simpa [numStop] using h2
      simp [munchNum, hc]
  | cons c t ih =>
    rw [List.all_cons, Bool.and_eq_true] at h1
    simp [munchNum, h1.1, ih h1.2]

theorem parseNumTok_append {tok rest : List Char} (h1 : validNumTok tok = true)
    (h2 : numStop rest = true) : parseNumTok (tok ++ rest) = some (tok, rest) := by
  unfold parseNumTok
  rw [munchNum_append (validNumTok_all h1) h2]
  simp [h1]

/-- A valid number token starts with a minus sign or a digit. -/
theorem validNumTok_head {tok : List Char} (h : validNumTok tok = true) :
    ∃ c t, tok = c :: t ∧ (c = '-' ∨ isDigitChar c = true) := by
  cases tok with
  | nil => exact absurd h (by simp [validNumTok, stripMinus])
  | cons c t =>
    by_cases hm : c = '-'
    · exact ⟨c, t, rfl, Or.inl hm⟩
    · refine ⟨c, t, rfl, Or.inr ?_⟩
      have hstrip : stripMinus (c :: t) = c :: t := by simp [stripMinus, hm]
      rw [validNumTok.eq_def, hstrip] at h
      split at h
      · simp at h
      · rename_i heq
        cases heq
        rfl
      · rename_i c2 t2 _ heq
        cases heq
        rw [Bool.and_eq_true] at h
        exact h.1

/-! ## Heads of encoded values, and parser dispatch -/

theorem skipWs_cons_notWs {c : Char} (cs : List Char) (h : isWsChar c = false) :
    skipWs (c :: cs) = c :: cs := by
  simp [skipWs, h]

/-- The nine dispatch facts about a character that can start a number token. -/
theorem numHead_props (c : Char) (h : c = '-' ∨ isDigitChar c = true) :
    isWsChar c = false ∧ c ≠ ']' ∧ c ≠ rbrace ∧ c ≠ 'n' ∧ c ≠ 't' ∧ c ≠ 'f'
      ∧ c ≠ '"' ∧ c ≠ lbrace ∧ c ≠ '[' := by
  have hne : ∀ {a b : Char}, a.toNat ≠ b.toNat → a ≠ b :=
    fun hab he => hab (congrArg Char.toNat he)
  rcases h with rfl | hd
  · refine ⟨rfl, ?_, ?_, ?_, ?_, ?_, ?_, ?_, ?_⟩ <;> decide
  · have h48 : 48 ≤ c.toNat ∧ c.toNat ≤ 57 := by simpa [isDigitChar] using hd
    refine ⟨?_, ?_, ?_, ?_, ?_, ?_, ?_, ?_, ?_⟩
    · simp only [isWsChar, Bool.or_eq_false_iff, beq_eq_false_iff_ne]
      exact ⟨⟨⟨hne (show c.toNat ≠ 32 by omega), hne (show c.toNat ≠ 9 by omega)⟩,
        hne (show c.toNat ≠ 10 by omega)⟩, hne (show c.toNat ≠ 13 by omega)⟩
    · exact hne (show c.toNat ≠ 93 by omega)
    · exact hne (show c.toNat ≠ 125 by omega)
    · exact hne (show c.toNat ≠ 110 by omega)
    · exact hne (show c.toNat ≠ 116 by omega)
    · exact hne (show c.toNat ≠ 102 by omega)
    · exact hne (show c.toNat ≠ 34 by omega)
    · exact hne (show c.toNat ≠ 123 by omega)
    · exact hne (show c.toNat ≠ 91 by omega)

/-- Every encoded well-formed value starts with a character that is not
whitespace and closes neither an array nor an object. -/
theorem encodeStarts (j : Json) (hwf : jsonWf j = true) :
    ∃ c t, jsonEncode j = c :: t ∧ isWsChar c = false ∧ c ≠ ']' ∧ c ≠ rbrace := by
  have pack : ∀ c : Char, (isWsChar c = false ∧ c ≠ ']' ∧ c ≠ rbrace) →
      ∀ t, jsonEncode j = c :: t →
      ∃ c t, jsonEncode j = c :: t ∧ isWsChar c = false ∧ c ≠ ']' ∧ c ≠ rbrace :=
    fun c hc t ht => ⟨c, t, ht, hc.1, hc.2.1, hc.2.2⟩
  cases j with
  | num tok =>
    obtain ⟨c, t, htok, hc⟩ := validNumTok_head (hwf : validNumTok tok = true)
    obtain ⟨h1, h2, h3, _⟩ := numHead_props c hc
    exact pack c ⟨h1, h2, h3⟩ t (by simp [jsonEncode, htok])
  | null => exact pack 'n' (by decide) _ rfl
  | bool b => cases b with
    | true => exact pack 't' (by decide) _ rfl
    | false => exact pack 'f' (by decide) _ rfl
  | str s => exact pack '"' (by decide) _ rfl
  | arr es => exact pack '[' (by decide) _ rfl
  | obj fs => exact pack lbrace (by decide) _ rfl

theorem skipWs_encode (j : Json) (hwf : jsonWf j = true) (x : List Char) :
    skipWs (jsonEncode j ++ x) = jsonEncode j ++ x := by
  obtain ⟨c, t, henc, hws, _, _⟩ := encodeStarts j hwf
  rw [henc, List.cons_append]
  exact skipWs_cons_notWs _ hws

/-- One-step unfoldings of the parser at successor fuel (definitional). -/
theorem parseValue_nullLit (fuel : Nat) (r : List Char) :
    parseValue (fuel + 1) ('n' :: 'u' :: 'l' :: 'l' :: r) = some (.null, r) := rfl

theorem parseValue_trueLit (fuel : Nat) (r : List Char) :
    parseValue (fuel + 1) ('t' :: 'r' :: 'u' :: 'e' :: r) = some (.bool true, r) := rfl

theorem parseValue_falseLit (fuel : Nat) (r : List Char) :
    parseValue (fuel + 1) ('f' :: 'a' :: 'l' :: 's' :: 'e' :: r) = some (.bool false, r) := rfl

theorem parseValue_strLit (fuel : Nat) (r : List Char) :
    parseValue (fuel + 1) ('"' :: r)
      = (decodeStr r).map (fun p => (Json.str (String.mk p.1), p.2)) := rfl

theorem parseValue_arrOpen (fuel : Nat) (r : List Char) :
    parseValue (fuel + 1) ('[' :: r)
      = (match skipWs r with
        | d :: r2 =>
          if d = ']' then some (.arr [], r2)
          else (parseElems fuel (d :: r2)).map (fun p => (Json.arr p.1, p.2))
        | [] => none) := rfl

theorem parseValue_objOpen (fuel : Nat) (r : List Char) :
    parseValue (fuel + 1) (lbrace :: r)
      = (match skipWs r with
        | d :: r2 =>
          if d = rbrace then some (.obj [], r2)
          else (parseMembers fuel (d :: r2)).map (fun p => (Json.obj p.1, p.2))
        | [] => none) := rfl

theorem parseElems_step (fuel : Nat) (cs : List Char) :
    parseElems (fuel + 1) cs
      = (match parseValue fuel cs with
        | none => none
        | some (v, r) =>
          match skipWs r with
          | c :: r2 =>
            if c = ',' then (parseElems fuel r2).map (fun p => (v :: p.1, p.2))
            else if c = ']' then some ([v], r2)
            else none
          | [] => none) := rfl

theorem parseMembers_step (fuel : Nat) (cs : List Char) :
    parseMembers (fuel + 1) cs
      = (match skipWs cs with
        | '"' :: r =>
          match decodeStr r with
          | none => none
          | some (kcs, r1) =>
            match skipWs r1 with
            | ':' :: r2 =>
              match parseValue fuel r2 with
              | none => none
              | some (v, r3) =>
                match skipWs r3 with
                | c :: r4 =>
                  if c = ',' then
                    (parseMembers fuel r4).map (fun p => ((String.mk kcs, v) :: p.1, p.2))
                  else if c = rbrace then some ([(String.mk kcs, v)], r4)
                  else none
                | [] => none
            | _ => none
        | _ => none) := rfl

/-- A value whose input starts with a number head parses through the number
branch. -/
theorem parseValue_numHead (fuel : Nat) (c : Char) (r : List Char)
    (h : c = '-' ∨ isDigitChar c = true) :
    parseValue (fuel + 1) (c :: r)
      = (parseNumTok (c :: r)).map (fun p => (Json.num p.1, p.2)) := by
  obtain ⟨hws, _, _, hn, ht, hf, hq, hlb, hbk⟩ := numHead_props c h
  have hnum : (c = '-' || isDigitChar c) = true := by
    rcases h with rfl | hd
    · rfl
    · simp [hd]
  rw [show parseValue (fuel + 1) (c :: r)
      = (match skipWs (c :: r) with
        | 'n' :: 'u' :: 'l' :: 'l' :: r => some (.null, r)
        | 't' :: 'r' :: 'u' :: 'e' :: r => some (.bool true, r)
        | 'f' :: 'a' :: 'l' :: 's' :: 'e' :: r => some (.bool false, r)
        | c :: r =>
          if c = '"' then (decodeStr r).map (fun p => (Json.str (String.mk p.1), p.2))
          else if c = lbrace then
            match skipWs r with
            | d :: r2 =>
              if d = rbrace then some (.obj [], r2)
              else (parseMembers fuel (d :: r2)).map (fun p => (Json.obj p.1, p.2))
            | [] => none
          else if c = '[' then
            match skipWs r with
            | d :: r2 =>
              if d = ']' then some (.arr [], r2)
              else (parseElems fuel (d :: r2)).map (fun p => (Json.arr p.1, p.2))
            | [] => none
          else if c = '-' || isDigitChar c then
            (parseNumTok (c :: r)).map (fun p => (Json.num p.1, p.2))
          else none
        | [] => none) from rfl]
  rw [skipWs_cons_notWs _ hws]
  simp [hn, ht, hf, hq, hlb, hbk, hnum]


theorem and_true_split {a b : Bool} (h : (a && b) = true) : a = true ∧ b = true := by
  rw [Bool.and_eq_true] at h
  exact h

/-- The array branch on a nonempty element list reduces to parseElems. -/
theorem parseValue_arrOpen2 (fuel : Nat) (d : Char) (r2 : List Char)
    (hws : isWsChar d = false) (hne : d ≠ ']') :
    parseValue (fuel + 1) ('[' :: d :: r2)
      = (parseElems fuel (d :: r2)).map (fun p => (Json.arr p.1, p.2)) := by
  rw [parseValue_arrOpen, skipWs_cons_notWs _ hws]
  show (if d = ']' then some (.arr [], r2)
    else (parseElems fuel (d :: r2)).map (fun p => (Json.arr p.1, p.2))) = _
  rw [if_neg hne]

/-- The object branch on a nonempty member list reduces to parseMembers. -/
theorem parseValue_objOpen2 (fuel : Nat) (d : Char) (r2 : List Char)
    (hws : isWsChar d = false) (hne : d ≠ rbrace) :
    parseValue (fuel + 1) (lbrace :: d :: r2)
      = (parseMembers fuel (d :: r2)).map (fun p => (Json.obj p.1, p.2)) := by
  rw [parseValue_objOpen, skipWs_cons_notWs _ hws]
  show (if d = rbrace then some (.obj [], r2)
    else (parseMembers fuel (d :: r2)).map (fun p => (Json.obj p.1, p.2))) = _
  rw [if_neg hne]

/-! ## Length bookkeeping for the round-trip -/

theorem jsonEncode_arr_cons (e : Json) (es : List Json) :
    jsonEncode (.arr (e :: es)) = '[' :: (jsonEncodeElems (e :: es) ++ [']']) := rfl

theorem jsonEncodeElems_cons (e : Json) (es : List Json) :
    jsonEncodeElems (e :: es) = jsonEncode e ++ jsonEncodeElemsTail es := rfl

theorem jsonEncodeElemsTail_cons (e : Json) (es : List Json) :
    jsonEncodeElemsTail (e :: es) = ',' :: jsonEncodeElems (e :: es) := rfl

theorem jsonEncodeFields_cons (k : String) (v : Json) (fs : List (String × Json)) :
    jsonEncodeFields ((k, v) :: fs)
      = '"' :: (escapeList k.data ++ ('"' :: ':' :: (jsonEncode v ++ jsonEncodeFieldsTail fs))) :=
  rfl

theorem jsonEncodeFieldsTail_cons (k : String) (v : Json) (fs : List (String × Json)) :
    jsonEncodeFieldsTail ((k, v) :: fs) = ',' :: jsonEncodeFields ((k, v) :: fs) := rfl

/-! ## The codec round-trip: the parser inverts the encoder on well-formed
values, whatever non-number-extending input follows. -/

mutual

theorem rt_value : ∀ (j : Json) (fuel : Nat) (rest : List Char),
    jsonWf j = true → (jsonEncode j).length < fuel → numStop rest = true →
    parseValue fuel (jsonEncode j ++ rest) = some (j, rest)
  | .null, fuel, rest, _, hf, _ => by
    cases fuel with
    | zero => exact absurd hf (Nat.not_lt_zero _)
    | succ f => exact parseValue_nullLit f rest
  | .bool true, fuel, rest, _, hf, _ => by
    cases fuel with
    | zero => exact absurd hf (Nat.not_lt_zero _)
    | succ f => exact parseValue_trueLit f rest
  | .bool false, fuel, rest, _, hf, _ => by
    cases fuel with
    | zero => exact absurd hf (Nat.not_lt_zero _)
    | succ f => exact parseValue_falseLit f rest
  | .num tok, fuel, rest, hwf, hf, hr => by
    have hv : validNumTok tok = true := hwf
    obtain ⟨c, t, htok, hc⟩ := validNumTok_head hv
    cases fuel with
    | zero => exact absurd hf (Nat.not_lt_zero _)
    | succ f =>
      have harg : jsonEncode (.num tok) ++ rest = c :: (t ++ rest) := by
        simp [jsonEncode, htok]
      rw [harg, parseValue_numHead f c (t ++ rest) hc,
        show c :: (t ++ rest) = (c :: t) ++ rest from rfl, ← htok,
        parseNumTok_append hv hr]
      rfl
  | .str s, fuel, rest, _, hf, _ => by
    cases fuel with
    | zero => exact absurd hf (Nat.not_lt_zero _)
    | succ f =>
      have harg : jsonEncode (.str s) ++ rest = '"' :: (escapeList s.data ++ '"' :: rest) := by
        simp [jsonEncode]
      rw [harg, parseValue_strLit f, decodeStr_escapeList]
      rfl
  | .arr [], fuel, rest, _, hf, _ => by
    cases fuel with
    | zero => simp [jsonEncode, jsonEncodeElems] at hf
    | succ f =>
      have harg : jsonEncode (.arr []) ++ rest = '[' :: (']' :: rest) := rfl
      rw [harg, parseValue_arrOpen f, skipWs_cons_notWs _ (by decide)]
      simp
  | .arr (e :: es), fuel, rest, hwf, hf, _ => by
    have hwe := and_true_split (hwf : (jsonWf e && jsonWfList es) = true)
    cases fuel with
    | zero => exact absurd hf (Nat.not_lt_zero _)
    | succ f =>
      have hlen : (jsonEncodeElems (e :: es)).length + 1 < f := by
        have h2 : (jsonEncode (.arr (e :: es))).length
            = (jsonEncodeElems (e :: es)).length + 2 := by
          rw [jsonEncode_arr_cons]
          simp
        omega
      have key := rt_elems e es f rest hwf hlen
      obtain ⟨c, t, hhead, hws, hneRB, _⟩ := encodeStarts e hwe.1
      have hcons : jsonEncodeElems (e :: es) ++ ']' :: rest
          = c :: (t ++ jsonEncodeElemsTail es ++ ']' :: rest) := by
        rw [jsonEncodeElems_cons, hhead]
        simp
      have harg : jsonEncode (.arr (e :: es)) ++ rest
          = '[' :: (c :: (t ++ jsonEncodeElemsTail es ++ ']' :: rest)) := by
        rw [jsonEncode_arr_cons, ← hcons]
        simp
      rw [harg, parseValue_arrOpen2 f c _ hws hneRB, ← hcons, key]
      rfl
  | .obj [], fuel, rest, _, hf, _ => by
    cases fuel with
    | zero => simp [jsonEncode, jsonEncodeFields] at hf
    | succ f =>
      have harg : jsonEncode (.obj []) ++ rest = lbrace :: (rbrace :: rest) := rfl
      rw [harg, parseValue_objOpen f, skipWs_cons_notWs _ (by decide)]
      simp
  | .obj ((k, v) :: fs), fuel, rest, hwf, hf, _ => by
    cases fuel with
    | zero => exact absurd hf (Nat.not_lt_zero _)
    | succ f =>
      have hlen : (jsonEncodeFields ((k, v) :: fs)).length + 1 < f := by
        have h2 : (jsonEncode (.obj ((k, v) :: fs))).length
            = (jsonEncodeFields ((k, v) :: fs)).length + 2 := by
          show (lbrace :: (jsonEncodeFields ((k, v) :: fs) ++ [rbrace])).length = _
          simp
        omega
      have key := rt_fields (k, v) fs f rest hwf hlen
      have hcons : jsonEncodeFields ((k, v) :: fs) ++ rbrace :: rest
          = '"' :: ((escapeList k.data
              ++ ('"' :: ':' :: (jsonEncode v ++ jsonEncodeFieldsTail fs))) ++ rbrace :: rest) := by
        rw [jsonEncodeFields_cons]
        simp
      have harg : jsonEncode (.obj ((k, v) :: fs)) ++ rest
          = lbrace :: ('"' :: ((escapeList k.data
              ++ ('"' :: ':' :: (jsonEncode v ++ jsonEncodeFieldsTail fs))) ++ rbrace :: rest)) := by
        show (lbrace :: (jsonEncodeFields ((k, v) :: fs) ++ [rbrace])) ++ rest = _
        rw [← hcons]
        simp
      rw [harg, parseValue_objOpen2 f '"' _ (by decide) (by decide), ← hcons, key]
      rfl
termination_by j _ _ _ _ _ => sizeOf j

theorem rt_elems : ∀ (e : Json) (es : List Json) (fuel : Nat) (rest : List Char),
    jsonWfList (e :: es) = true → (jsonEncodeElems (e :: es)).length + 1 < fuel →
    parseElems fuel (jsonEncodeElems (e :: es) ++ ']' :: rest) = some (e :: es, rest)
  | e, [], fuel, rest, hwf, hf => by
    have hwe := (and_true_split (hwf : (jsonWf e && jsonWfList []) = true)).1
    cases fuel with
    | zero => exact absurd hf (Nat.not_lt_zero _)
    | succ f =>
      have hone : jsonEncodeElems [e] = jsonEncode e := by
        rw [jsonEncodeElems_cons]
        simp [jsonEncodeElemsTail]
      have hfe : (jsonEncode e).length < f := by
        rw [hone] at hf
        omega
      have hv := rt_value e f (']' :: rest) hwe hfe rfl
      rw [hone, parseElems_step, hv]
      have hsw : skipWs (']' :: rest) = ']' :: rest := skipWs_cons_notWs _ (by decide)
      simp [hsw, (by decide : ¬((']' : Char) = ','))]
  | e, x :: xs, fuel, rest, hwf, hf => by
    have hsp := and_true_split (hwf : (jsonWf e && jsonWfList (x :: xs)) = true)
    cases fuel with
    | zero => exact absurd hf (Nat.not_lt_zero _)
    | succ f =>
      have hsplit : jsonEncodeElems (e :: x :: xs)
          = jsonEncode e ++ ',' :: jsonEncodeElems (x :: xs) := by
        rw [jsonEncodeElems_cons, jsonEncodeElemsTail_cons]
      have hfe : (jsonEncode e).length < f := by
        rw [hsplit] at hf
        simp at hf
        omega
      have hfx : (jsonEncodeElems (x :: xs)).length + 1 < f := by
        rw [hsplit] at hf
        simp at hf
        omega
      have hv := rt_value e f (',' :: (jsonEncodeElems (x :: xs) ++ ']' :: rest)) hsp.1 hfe rfl
      have key := rt_elems x xs f rest hsp.2 hfx
      have harg : jsonEncodeElems (e :: x :: xs) ++ ']' :: rest
          = jsonEncode e ++ (',' :: (jsonEncodeElems (x :: xs) ++ ']' :: rest)) := by
        rw [hsplit]
        simp
      rw [harg, parseElems_step, hv]
      have hsw : skipWs (',' :: (jsonEncodeElems (x :: xs) ++ ']' :: rest))
          = ',' :: (jsonEncodeElems (x :: xs) ++ ']' :: rest) :=
        skipWs_cons_notWs _ (by decide)
      simp [hsw, key]
termination_by e es _ _ _ _ => sizeOf e + sizeOf es

theorem rt_fields : ∀ (kv : String × Json) (fs : List (String × Json)) (fuel : Nat)
      (rest : List Char),
    jsonWfFields (kv :: fs) = true → (jsonEncodeFields (kv :: fs)).length + 1 < fuel →
    parseMembers fuel (jsonEncodeFields (kv :: fs) ++ rbrace :: rest) = some (kv :: fs, rest)
  | (k, v), [], fuel, rest, hwf, hf => by
    have hwv := (and_true_split (hwf : (jsonWf v && jsonWfFields []) = true)).1
    cases fuel with
    | zero => exact absurd hf (Nat.not_lt_zero _)
    | succ f =>
      have hfe : (jsonEncode v).length < f := by
        rw [jsonEncodeFields_cons] at hf
        simp [jsonEncodeFieldsTail] at hf
        omega
      have hv := rt_value v f (rbrace :: rest) hwv hfe rfl
      have harg : jsonEncodeFields [(k, v)] ++ rbrace :: rest
          = '"' :: (escapeList k.data ++ '"' :: (':' :: (jsonEncode v ++ rbrace :: rest))) := by
        rw [jsonEncodeFields_cons]
        simp [jsonEncodeFieldsTail]
      have hsw : skipWs (rbrace :: rest) = rbrace :: rest := skipWs_cons_notWs _ (by decide)
      rw [harg, parseMembers_step]
      simp [skipWs_cons_notWs, isWsChar, decodeStr_escapeList, hv, hsw,
        (by decide : ¬(rbrace = ','))]
  | (k, v), (k2, v2) :: fs2, fuel, rest, hwf, hf => by
    have hsp := and_true_split (hwf : (jsonWf v && jsonWfFields ((k2, v2) :: fs2)) = true)
    cases fuel with
    | zero => exact absurd hf (Nat.not_lt_zero _)
    | succ f =>
      have hsplit : jsonEncodeFields ((k, v) :: (k2, v2) :: fs2)
          = '"' :: (escapeList k.data
              ++ ('"' :: ':' :: (jsonEncode v ++ ',' :: jsonEncodeFields ((k2, v2) :: fs2)))) := by
        rw [jsonEncodeFields_cons, jsonEncodeFieldsTail_cons]
      have hfe : (jsonEncode v).length < f := by
        rw [hsplit] at hf
        simp at hf
        omega
      have hfx : (jsonEncodeFields ((k2, v2) :: fs2)).length + 1 < f := by
        rw [hsplit] at hf
        simp at hf
        omega
      have hv := rt_value v f
        (',' :: (jsonEncodeFields ((k2, v2) :: fs2) ++ rbrace :: rest)) hsp.1 hfe rfl
      have key := rt_fields (k2, v2) fs2 f rest hsp.2 hfx
      have harg : jsonEncodeFields ((k, v) :: (k2, v2) :: fs2) ++ rbrace :: rest
          = '"' :: (escapeList k.data ++ '"' :: (':' :: (jsonEncode v
              ++ ',' :: (jsonEncodeFields ((k2, v2) :: fs2) ++ rbrace :: rest)))) := by
        rw [hsplit]
        simp
      rw [harg, parseMembers_step]
      simp [skipWs_cons_notWs, isWsChar, decodeStr_escapeList, hv, key]
termination_by kv fs _ _ _ _ => sizeOf kv + sizeOf fs

end

/-! ## Parser outputs are well formed -/

theorem parseNumTok_valid {cs tok r : List Char} (h : parseNumTok cs = some (tok, r)) :
    validNumTok tok = true := by
  simp only [parseNumTok] at h
  split at h
  · rename_i hvalid
    cases h
    exact hvalid
  · exact absurd h (by simp)

mutual

theorem parseValue_wf : ∀ (fuel : Nat) (cs : List Char) (j : Json) (r : List Char),
    parseValue fuel cs = some (j, r) → jsonWf j = true
  | 0, _, _, _, h => by simp [parseValue] at h
  | fuel + 1, cs, j, r, h => by
    simp only [parseValue] at h
    repeat' split at h
    all_goals first
      | contradiction
      | (simp only [Option.some.injEq, Prod.mk.injEq] at h
         obtain ⟨rfl, _⟩ := h
         rfl)
      | (rw [Option.map_eq_some'] at h
         obtain ⟨a, ha, hfa⟩ := h
         injection hfa with hj _
         subst hj
         first
           | rfl
           | exact parseMembers_wf fuel _ a.1 a.2 ha
           | exact parseElems_wf fuel _ a.1 a.2 ha
           | exact parseNumTok_valid (by
               rw [show a = (a.1, a.2) from rfl] at ha
               exact ha))

theorem parseElems_wf : ∀ (fuel : Nat) (cs : List Char) (es : List Json) (r : List Char),
    parseElems fuel cs = some (es, r) → jsonWfList es = true
  | 0, _, _, _, h => by simp [parseElems] at h
  | fuel + 1, cs, es, r, h => by
    rw [parseElems_step] at h
    repeat' split at h
    all_goals first
      | contradiction
      | (rename_i v0 r0 hpv sk c0 r2 hsw hc
         rw [Option.map_eq_some'] at h
         obtain ⟨a, ha, hfa⟩ := h
         injection hfa with hes _
         subst hes
         show (jsonWf v0 && jsonWfList a.1) = true
         rw [parseValue_wf fuel _ v0 r0 hpv, parseElems_wf fuel _ a.1 a.2 ha]
         rfl)
      | (rename_i v0 r0 hpv sk c0 r2 hsw hne hcl
         simp only [Option.some.injEq, Prod.mk.injEq] at h
         obtain ⟨h1, _⟩ := h
         subst h1
         show (jsonWf v0 && jsonWfList []) = true
         rw [parseValue_wf fuel _ v0 r0 hpv]
         rfl)

theorem parseMembers_wf : ∀ (fuel : Nat) (cs : List Char) (fs : List (String × Json))
      (r : List Char),
    parseMembers fuel cs = some (fs, r) → jsonWfFields fs = true
  | 0, _, _, _, h => by simp [parseMembers] at h
  | fuel + 1, cs, fs, r, h => by
    rw [parseMembers_step] at h
    repeat' split at h
    all_goals first
      | contradiction
      | (rename_i v0 r0 hpv sk c0 r4 hsw hc
         rw [Option.map_eq_some'] at h
         obtain ⟨a, ha, hfa⟩ := h
         injection hfa with hfs _
         subst hfs
         show (jsonWf v0 && jsonWfFields a.1) = true
         rw [parseValue_wf fuel _ v0 r0 hpv, parseMembers_wf fuel _ a.1 a.2 ha]
         rfl)
      | (rename_i v0 r0 hpv sk c0 r4 hsw hne hcl
         simp only [Option.some.injEq, Prod.mk.injEq] at h
         obtain ⟨h1, _⟩ := h
         subst h1
         show (jsonWf v0 && jsonWfFields []) = true
         rw [parseValue_wf fuel _ v0 r0 hpv]
         rfl)

end

/-! ## The key order and canonical Go maps -/

theorem charsLt_nil_right : ∀ b : List Char, charsLt b [] = false
  | [] => rfl
  | _ :: _ => rfl

theorem charsLt_irrefl : ∀ l : List Char, charsLt l l = false
  | [] => rfl
  | c :: t => by simp [charsLt, charsLt_irrefl t, lt_irrefl]

theorem charsLt_trans : ∀ (a b c : List Char), charsLt a b = true → charsLt b c = true →
    charsLt a c = true
  | _, [], _, h1, _ => by rw [charsLt_nil_right] at h1; cases h1
  | _, _ :: _, [], _, h2 => by rw [charsLt_nil_right] at h2; cases h2
  | [], _ :: _, _ :: _, _, _ => rfl
  | a1 :: as, b1 :: bs, c1 :: cs, h1, h2 => by
    simp only [charsLt, Bool.or_eq_true, Bool.and_eq_true, decide_eq_true_eq,
      beq_iff_eq] at h1 h2 ⊢
    rcases h1 with h1 | ⟨rfl, h1⟩
    · rcases h2 with h2 | ⟨rfl, h2⟩
      · exact Or.inl (lt_trans h1 h2)
      · exact Or.inl h1
    · rcases h2 with h2 | ⟨rfl, h2⟩
      · exact Or.inl h2
      · exact Or.inr ⟨rfl, charsLt_trans as bs cs h1 h2⟩

theorem charsLt_connex : ∀ (a b : List Char), a ≠ b →
    charsLt a b = true ∨ charsLt b a = true
  | [], [], h => absurd rfl h
  | [], _ :: _, _ => Or.inl rfl
  | _ :: _, [], _ => Or.inr rfl
  | a1 :: as, b1 :: bs, h => by
    by_cases he : a1 = b1
    · subst he
      have hne : as ≠ bs := fun hh => h (by rw [hh])
      rcases charsLt_connex as bs hne with h' | h'
      · exact Or.inl (by simp [charsLt, h'])
      · exact Or.inr (by simp [charsLt, h'])
    · rcases lt_or_gt_of_ne he with h' | h'
      · exact Or.inl (by simp [charsLt, h'])
      · exact Or.inr (by simp [charsLt, h'])

theorem strExt {a b : String} (h : a.data = b.data) : a = b := by
  cases a
  cases b
  exact congrArg String.mk h

theorem strLtB_trans {a b c : String} (h1 : strLtB a b = true) (h2 : strLtB b c = true) :
    strLtB a c = true := charsLt_trans _ _ _ h1 h2

theorem strLtB_irrefl (a : String) : strLtB a a = false := charsLt_irrefl _

theorem strLtB_connex {a b : String} (h : a ≠ b) :
    strLtB a b = true ∨ strLtB b a = true :=
  charsLt_connex _ _ (fun hd => h (strExt hd))

theorem strLtB_asymm {a b : String} (h1 : strLtB a b = true) : strLtB b a = false := by
  cases hba : strLtB b a
  · rfl
  · have := strLtB_trans h1 hba
    rw [strLtB_irrefl] at this
    cases this

theorem ne_of_strLtB {a b : String} (h : strLtB a b = true) : a ≠ b := by
  intro he
  subst he
  rw [strLtB_irrefl] at h
  cases h

theorem mem_insertSorted (k : String) (v : Json) :
    ∀ (t : List (String × Json)) (e : String × Json),
      e ∈ insertSorted k v t → e = (k, v) ∨ e ∈ t
  | [], e, h => Or.inl (by simpa [insertSorted] using h)
  | (k1, v1) :: t, e, h => by
    by_cases h1 : k = k1
    · rw [insertSorted, if_pos h1] at h
      rcases List.mem_cons.mp h with h' | h'
      · exact Or.inl h'
      · exact Or.inr (List.mem_cons_of_mem _ h')
    · by_cases h2 : strLtB k k1 = true
      · rw [insertSorted, if_neg h1, if_pos h2] at h
        rcases List.mem_cons.mp h with h' | h'
        · exact Or.inl h'
        · exact Or.inr h'
      · rw [insertSorted, if_neg h1, if_neg h2] at h
        rcases List.mem_cons.mp h with h' | h'
        · exact Or.inr (h' ▸ List.mem_cons_self _ _)
        · rcases mem_insertSorted k v t e h' with h'' | h''
          · exact Or.inl h''
          · exact Or.inr (List.mem_cons_of_mem _ h'')

theorem pairwise_insertSorted (k : String) (v : Json) :
    ∀ t : List (String × Json),
      List.Pairwise (fun a b => strLtB a.1 b.1 = true) t →
      List.Pairwise (fun a b => strLtB a.1 b.1 = true) (insertSorted k v t)
  | [], _ => by simp [insertSorted]
  | (k1, v1) :: t, hp => by
    rw [List.pairwise_cons] at hp
    by_cases h1 : k = k1
    · rw [insertSorted, if_pos h1]
      rw [List.pairwise_cons]
      exact ⟨fun e he => h1 ▸ hp.1 e he, hp.2⟩
    · by_cases h2 : strLtB k k1 = true
      · rw [insertSorted, if_neg h1, if_pos h2]
        rw [List.pairwise_cons]
        refine ⟨?_, List.pairwise_cons.mpr hp⟩
        intro e he
        rcases List.mem_cons.mp he with h' | h'
        · rw [h']
          exact h2
        · exact strLtB_trans h2 (hp.1 e h')
      · rw [insertSorted, if_neg h1, if_neg h2]
        rw [List.pairwise_cons]
        refine ⟨?_, pairwise_insertSorted k v t hp.2⟩
        intro e he
        rcases mem_insertSorted k v t e he with h' | h'
        · rw [h']
          rcases strLtB_connex (Ne.symm h1) with h'' | h''
          · exact h''
          · exact absurd h'' h2
        · exact hp.1 e h'

theorem insertSorted_append_of_gt (k : String) (v : Json) :
    ∀ t : List (String × Json), (∀ e ∈ t, strLtB e.1 k = true) →
      insertSorted k v t = t ++ [(k, v)]
  | [], _ => rfl
  | (k1, v1) :: t, hgt => by
    have hk1 : strLtB k1 k = true := hgt (k1, v1) (List.mem_cons_self _ _)
    have h1 : ¬k = k1 := fun he => ne_of_strLtB hk1 he.symm
    have h2 : ¬strLtB k k1 = true := by
      rw [strLtB_asymm hk1]
      simp
    rw [insertSorted, if_neg h1, if_neg h2,
      insertSorted_append_of_gt k v t (fun e he => hgt e (List.mem_cons_of_mem _ he))]
    rfl

theorem canonMap_pairwise_aux :
    ∀ (fs : List (String × Json)) (acc : List (String × Json)),
      List.Pairwise (fun a b => strLtB a.1 b.1 = true) acc →
      List.Pairwise (fun a b => strLtB a.1 b.1 = true)
        (fs.foldl (fun acc kv => insertSorted kv.1 kv.2 acc) acc)
  | [], _, h => h
  | kv :: fs, acc, h =>
    canonMap_pairwise_aux fs _ (pairwise_insertSorted kv.1 kv.2 acc h)

theorem canonMap_pairwise (fs : List (String × Json)) :
    List.Pairwise (fun a b => strLtB a.1 b.1 = true) (canonMap fs) :=
  canonMap_pairwise_aux fs [] List.Pairwise.nil

theorem canonMap_id_of_pairwise (fs : List (String × Json))
    (h : List.Pairwise (fun a b => strLtB a.1 b.1 = true) fs) : canonMap fs = fs := by
  induction fs using List.reverseRecOn with
  | nil => rfl
  | append_singleton l e ih =>
    rw [List.pairwise_append] at h
    have hl := h.1
    have hgt : ∀ x ∈ l, strLtB x.1 e.1 = true := fun x hx =>
      h.2.2 x hx e (List.mem_singleton_self _)
    show (l ++ [e]).foldl (fun acc kv => insertSorted kv.1 kv.2 acc) [] = l ++ [e]
    rw [List.foldl_append]
    show insertSorted e.1 e.2 (canonMap l) = l ++ [e]
    rw [ih hl, insertSorted_append_of_gt e.1 e.2 l hgt]

theorem mem_canonMap_aux :
    ∀ (fs acc : List (String × Json)) (e : String × Json),
      e ∈ fs.foldl (fun acc kv => insertSorted kv.1 kv.2 acc) acc → e ∈ acc ∨ e ∈ fs
  | [], _, _, h => Or.inl h
  | kv :: fs, acc, e, h => by
    rcases mem_canonMap_aux fs _ e h with h' | h'
    · rcases mem_insertSorted kv.1 kv.2 acc e h' with h'' | h''
      · exact Or.inr (by rw [h'']; exact List.mem_cons_self _ _)
      · exact Or.inl h''
    · exact Or.inr (List.mem_cons_of_mem _ h')

theorem mem_canonMap {fs : List (String × Json)} {e : String × Json}
    (h : e ∈ canonMap fs) : e ∈ fs := by
  rcases mem_canonMap_aux fs [] e h with h' | h'
  · cases h'
  · exact h'

theorem jsonWfFields_iff (fs : List (String × Json)) :
    jsonWfFields fs = true ↔ ∀ kv ∈ fs, jsonWf kv.2 = true := by
  induction fs with
  | nil => simp [jsonWfFields]
  | cons kv t ih =>
    obtain ⟨k, v⟩ := kv
    rw [show jsonWfFields ((k, v) :: t) = (jsonWf v && jsonWfFields t) from rfl,
      Bool.and_eq_true, ih]
    constructor
    · rintro ⟨h1, h2⟩ e he
      rcases List.mem_cons.mp he with h' | h'
      · rw [h']
        exact h1
      · exact h2 e h'
    · intro hall
      exact ⟨hall (k, v) (List.mem_cons_self _ _),
        fun e he => hall e (List.mem_cons_of_mem _ he)⟩

/-! ## Unmarshal output shape, and Marshal as a right inverse -/

theorem goUnmarshalMap_shape {s : String} {fs : List (String × Json)}
    (h : goUnmarshalMap s = some fs) :
    List.Pairwise (fun a b => strLtB a.1 b.1 = true) fs ∧ jsonWfFields fs = true := by
  simp only [goUnmarshalMap] at h
  split at h
  · exact absurd h (by simp)
  · rename_i j rest hpv
    split at h
    · split at h
      · cases h
        exact ⟨List.Pairwise.nil, rfl⟩
      · rename_i fields
        cases h
        refine ⟨canonMap_pairwise fields, ?_⟩
        have hw : jsonWfFields fields = true :=
          parseValue_wf _ _ _ _ hpv
        rw [jsonWfFields_iff]
        intro kv hkv
        exact (jsonWfFields_iff fields).mp hw kv (mem_canonMap hkv)
      · exact absurd h (by simp)
    · exact absurd h (by simp)

theorem goUnmarshalMap_goMarshalMap (fs : List (String × Json))
    (hs : List.Pairwise (fun a b => strLtB a.1 b.1 = true) fs)
    (hw : jsonWfFields fs = true) :
    goUnmarshalMap (goMarshalMap fs) = some fs := by
  have hc : canonMap fs = fs := canonMap_id_of_pairwise fs hs
  have hmar : goMarshalMap fs = String.mk (jsonEncode (Json.obj fs)) := by
    rw [goMarshalMap, hc]
  rw [hmar]
  simp only [goUnmarshalMap]
  have hrt := rt_value (Json.obj fs) (2 * (jsonEncode (Json.obj fs)).length + 2) []
    (hw : jsonWf (Json.obj fs) = true) (by omega) rfl
  rw [List.append_nil] at hrt
  rw [hrt]
  show (if (skipWs []).isEmpty = true then some (canonMap fs) else none) = some fs
  rw [hc]
  rfl

/-! ## Exact characterizations of one blob step -/

theorem blobStep_get_none {m : AttrMap} {d : List Diag} {bl : List String}
    (hbl : bl.isEmpty = false) (hget : mapGet m K8sKey = none) :
    blobStep (m, d) (K8sKey, bl) = (m, d) := by
  show (if bl.isEmpty = true then (m, d)
    else
      match mapGet m K8sKey with
      | none => (m, d)
      | some av =>
        match goUnmarshalMap (pvalStr av) with
        | none => (m, d ++ [Diag.warnUnmarshal K8sKey])
        | some blob =>
          (mapPutStr m K8sKey
            (goMarshalMap (blob.filter (fun kv => bl.contains kv.1))), d)) = (m, d)
  rw [hbl, if_neg Bool.false_ne_true, hget]

theorem blobStep_um_none {m : AttrMap} {d : List Diag} {bl : List String} {av : PValue}
    (hbl : bl.isEmpty = false) (hget : mapGet m K8sKey = some av)
    (hum : goUnmarshalMap (pvalStr av) = none) :
    blobStep (m, d) (K8sKey, bl) = (m, d ++ [Diag.warnUnmarshal K8sKey]) := by
  show (if bl.isEmpty = true then (m, d)
    else
      match mapGet m K8sKey with
      | none => (m, d)
      | some av =>
        match goUnmarshalMap (pvalStr av) with
        | none => (m, d ++ [Diag.warnUnmarshal K8sKey])
        | some blob =>
          (mapPutStr m K8sKey
            (goMarshalMap (blob.filter (fun kv => bl.contains kv.1))), d)) = _
  rw [hbl, if_neg Bool.false_ne_true, hget]
  show (match goUnmarshalMap (pvalStr av) with
    | none => (m, d ++ [Diag.warnUnmarshal K8sKey])
    | some blob =>
      (mapPutStr m K8sKey (goMarshalMap (blob.filter (fun kv => bl.contains kv.1))), d)) = _
  rw [hum]

theorem blobStep_um_some {m : AttrMap} {d : List Diag} {bl : List String} {av : PValue}
    {blob2 : List (String × Json)}
    (hbl : bl.isEmpty = false) (hget : mapGet m K8sKey = some av)
    (hum : goUnmarshalMap (pvalStr av) = some blob2) :
    blobStep (m, d) (K8sKey, bl)
      = (mapPutStr m K8sKey (goMarshalMap (blob2.filter (fun kv => bl.contains kv.1))), d) := by
  show (if bl.isEmpty = true then (m, d)
    else
      match mapGet m K8sKey with
      | none => (m, d)
      | some av =>
        match goUnmarshalMap (pvalStr av) with
        | none => (m, d ++ [Diag.warnUnmarshal K8sKey])
        | some blob =>
          (mapPutStr m K8sKey
            (goMarshalMap (blob.filter (fun kv => bl.contains kv.1))), d)) = _
  rw [hbl, if_neg Bool.false_ne_true, hget]
  show (match goUnmarshalMap (pvalStr av) with
    | none => (m, d ++ [Diag.warnUnmarshal K8sKey])
    | some blob =>
      (mapPutStr m K8sKey (goMarshalMap (blob.filter (fun kv => bl.contains kv.1))), d)) = _
  rw [hum]

/-! ## Claim theorem: idempotence -/

/-- C6.  Filtering is idempotent under each of the three static schemas: a
second run of filterAttributes on an already-filtered attribute set returns
it unchanged — the flat RemoveIf pass keeps everything it kept, and the blob
step re-decodes its own re-encoded output to the same members and writes the
identical string back. -/
theorem claim6_idempotent (L : ResourceLevel) (attrs : AttrMap) :
    (filterAttributes (filterAttributes attrs (schemaFilter L)).1 (schemaFilter L)).1
      = (filterAttributes attrs (schemaFilter L)).1 := by
  rw [filterAttributes_schema L attrs]
  have hblob : (blobLabels L).isEmpty = false := blobLabels_isEmpty L
  have hkeptAll : ∀ kv ∈ attrs.filter (keyKept (schemaFilter L)),
      keyKept (schemaFilter L) kv = true :=
    fun kv hkv => (List.mem_filter.mp hkv).2
  cases hget : mapGet (attrs.filter (keyKept (schemaFilter L))) K8sKey with
  | none =>
    rw [blobStep_get_none hblob hget, filterAttributes_schema,
      List.filter_eq_self.mpr hkeptAll, blobStep_get_none hblob hget]
  | some av =>
    cases hum : goUnmarshalMap (pvalStr av) with
    | none =>
      rw [blobStep_um_none hblob hget hum, filterAttributes_schema,
        List.filter_eq_self.mpr hkeptAll, blobStep_um_none hblob hget hum]
    | some blob =>
      rw [blobStep_um_some hblob hget hum]
      have hmemA1 : ∀ kv ∈ mapPutStr (attrs.filter (keyKept (schemaFilter L))) K8sKey
          (goMarshalMap (blob.filter (fun kv => (blobLabels L).contains kv.1))),
          keyKept (schemaFilter L) kv = true := by
        intro kv hkv
        rcases mem_mapPutStr _ _ _ _ hkv with h' | h'
        · exact hkeptAll kv h'
        · show (List.lookup kv.1 (schemaFilter L)).isSome = true
          rw [h']
          exact lookup_K8sKey_isSome L
      have hgetA1 : mapGet (mapPutStr (attrs.filter (keyKept (schemaFilter L))) K8sKey
          (goMarshalMap (blob.filter (fun kv => (blobLabels L).contains kv.1)))) K8sKey
          = some (.str (goMarshalMap (blob.filter (fun kv => (blobLabels L).contains kv.1)))) :=
        mapGet_mapPutStr_self _ _ _
      obtain ⟨hbs, hbw⟩ := goUnmarshalMap_shape hum
      have hnbs : List.Pairwise (fun a b => strLtB a.1 b.1 = true)
          (blob.filter (fun kv => (blobLabels L).contains kv.1)) := hbs.filter _
      have hnbw : jsonWfFields (blob.filter (fun kv => (blobLabels L).contains kv.1)) = true := by
        rw [jsonWfFields_iff]
        intro kv hkv
        exact (jsonWfFields_iff blob).mp hbw kv (List.mem_filter.mp hkv).1
      have hum2 : goUnmarshalMap
          (pvalStr (.str (goMarshalMap (blob.filter (fun kv => (blobLabels L).contains kv.1)))))
          = some (blob.filter (fun kv => (blobLabels L).contains kv.1)) :=
        goUnmarshalMap_goMarshalMap _ hnbs hnbw
      have hfilt2 : (blob.filter (fun kv => (blobLabels L).contains kv.1)).filter
          (fun kv => (blobLabels L).contains kv.1)
          = blob.filter (fun kv => (blobLabels L).contains kv.1) :=
        List.filter_eq_self.mpr (fun kv hkv => (List.mem_filter.mp hkv).2)
      rw [filterAttributes_schema, List.filter_eq_self.mpr hmemA1,
        blobStep_um_some hblob hgetA1 hum2, hfilt2]
      exact mapPutStr_id _ _ _ hgetA1

end GpuAttributes
